import Mathlib

/-!
# Verification of the work-order extraction pipeline

Shallow embedding of the extraction pipeline of the EY work-order
extraction repository (`src/cleaner.py`, `src/pdf_extractor.py`,
`src/rule_extractor.py`, `src/llm_fallback.py`) together with proofs and
refutations of the specified properties.

Python dictionaries are modelled as insertion-ordered association lists
(`List (String × α)`); JSON values returned by the language model are
modelled by the inductive type `Json`.  Regular-expression searches whose
match content is irrelevant to a property are passed in as explicit
oracle arguments (the Python `re` module is external library code); every
piece of control flow of the repository's own functions is modelled
directly.
-/

namespace WorkOrder

/-- JSON values as produced by Python's `json.loads` (numbers are modelled
as integers; no claim depends on float semantics). -/
inductive Json : Type where
  | null : Json
  | bool : Bool → Json
  | num : Int → Json
  | str : String → Json
  | arr : List Json → Json
  | obj : List (String × Json) → Json

/-- Python truthiness (`if v:`) of a JSON value: `None`, `False`, `0`,
`""`, `[]` and `{}` are falsy, everything else truthy. -/
def jsonTruthy : Json → Bool
  | .null => false
  | .bool b => b
  | .num n => !(n == 0)
  | .str s => !(s == "")
  | .arr xs => !xs.isEmpty
  | .obj f => !f.isEmpty

/-- `d.get(k)` on a Python dict modelled as an association list:
the value of the first binding of `k`. -/
def dictGet (d : List (String × α)) (k : String) : Option α :=
  (d.find? (fun p => p.1 == k)).map (·.2)

/-- `d.get(k, default)`. -/
def dictGetD (d : List (String × α)) (k : String) (v : α) : α :=
  (dictGet d k).getD v

/-- `d[k] = v` on a Python dict: update the existing slot for `k`
(keys of a Python dict are unique, so replacing every binding of `k`
coincides with updating the one slot), or append a new binding. -/
def dictSet (d : List (String × α)) (k : String) (v : α) : List (String × α) :=
  if d.any (fun p => p.1 == k) then
    d.map (fun p => if p.1 == k then (k, v) else p)
  else
    d ++ [(k, v)]

/-- The keys of a dict are pairwise distinct (always true of a real
Python dict; our association lists carry it as a hypothesis). -/
abbrev NodupKeys (d : List (String × α)) : Prop :=
  (d.map Prod.fst).Nodup

/-- `llm_data.get(key, {})` where `llm_data` is a parsed JSON value.
In Python a non-dict `llm_data` would raise `AttributeError` at the
`.get` call; the model totalises that case with the default `{}`, which
no theorem relies on. -/
def jsonObjGetD (j : Json) (k : String) : Json :=
  match j with
  | .obj f => dictGetD f k (.obj [])
  | _ => .obj []

/-- The field list of a JSON object (`{**llm_tb, ...}` unpacking); a
non-mapping value would raise `TypeError` in Python — totalised as `[]`,
which no theorem relies on. -/
def jsonFields : Json → List (String × Json)
  | .obj f => f
  | _ => []

/-!
## `src/cleaner.py`

`clean_text` is modelled character-faithfully over `List Char`.  Each
`re.sub` of the source is implemented as a left-to-right scanner with the
exact semantics of the corresponding pattern (leftmost match,
non-overlapping, continue after the match).  Python's `\s` and `\w` are
modelled by their ASCII meaning (all strings in the repository's domain
are ASCII).
-/

/-- Python `\s` (ASCII range). -/
def pyIsSpace (c : Char) : Bool :=
  c == ' ' || c == '\t' || c == '\n' || c == '\r' || c == '\x0b' || c == '\x0c'

/-- Python `\w` (ASCII range). -/
def isWordChar (c : Char) : Bool :=
  c.isAlphanum || c == '_'

/-- Strip characters satisfying `p` from both ends. -/
def stripBoth (p : Char → Bool) (l : List Char) : List Char :=
  ((l.dropWhile p).reverse.dropWhile p).reverse

/-- Python `str.strip()` on a character list. -/
def pyStripWs (l : List Char) : List Char :=
  stripBoth pyIsSpace l

/-- Python `str.strip()`. -/
def pyStripStr (s : String) : String :=
  String.mk (pyStripWs s.toList)

/-- `str.find(c)` restricted to a single character: index of the first
occurrence, `none` for Python's `-1`. -/
def pyFindChar (l : List Char) (c : Char) : Option Nat :=
  l.findIdx? (fun x => x = c)

/-- `str.rfind(c)`: index of the last occurrence. -/
def pyRfindChar (l : List Char) (c : Char) : Option Nat :=
  match pyFindChar l.reverse c with
  | none => none
  | some i => some (l.length - 1 - i)

/-- `raw[start:end]` for `0 ≤ start ≤ end`. -/
def pySlice (l : List Char) (s e : Nat) : List Char :=
  (l.take e).drop s

/-- `s[:n]` — Python slicing counts code points, as does `toList`. -/
def strTake (s : String) (n : Nat) : String :=
  String.mk (s.toList.take n)

/-- `sep.join(parts)`. -/
def pyJoin (sep : String) : List String → String
  | [] => ""
  | [s] => s
  | s :: rest => s ++ sep ++ pyJoin sep rest

/-- `raw.split('|')` on the character level. -/
def splitOnPipe : List Char → List (List Char)
  | [] => [[]]
  | c :: cs =>
    if c == '|' then [] :: splitOnPipe cs
    else
      match splitOnPipe cs with
      | h :: t => (c :: h) :: t
      | [] => [[c]]

/-- `re.sub(r'\s+', ' ', text)`: collapse every whitespace run to a
single space (a run's characters are dropped except the last, which
becomes `' '`). -/
def collapseWs : List Char → List Char
  | [] => []
  | [c] => if pyIsSpace c then [' '] else [c]
  | c :: d :: cs =>
    if pyIsSpace c && pyIsSpace d then collapseWs (d :: cs)
    else (if pyIsSpace c then ' ' else c) :: collapseWs (d :: cs)

/-- `_LETTER_SPACED_WORDS` (`src/cleaner.py:11-25`): each pattern
`\bL1\s+L2\s+...\s+Ln\b` is represented by its letter sequence
(lower-cased, matching is case-insensitive) and its literal
replacement. -/
def LETTER_SPACED_WORDS : List (List Char × List Char) :=
  [(['w','o','r','k','o','r','d','e','r'], "WORK ORDER".toList),
   (['c','o','a','l'], "COAL".toList),
   (['p','a','g','e'], "Page".toList),
   (['h','a','n','d','l','i','n','g'], "handling".toList),
   (['t','r','a','n','s','p','o','r','t'], "transport".toList),
   (['c','o','m','m','e','n','c','e','m','e','n','t'], "commencement".toList),
   (['s','t','a','t','u','t','o','r','y'], "statutory".toList),
   (['e','n','v','i','r','o','n','m','e','n','t','a','l'], "environmental".toList),
   (['c','o','m','p','l','i','a','n','c','e'], "compliance".toList),
   (['l','o','a','d','i','n','g'], "LOADING".toList),
   (['t','r','a','n','s','p','o','r','t','a','t','i','o','n'], "TRANSPORTATION".toList),
   (['h','a','n','d','l','i','n','g'], "HANDLING".toList),
   (['l','i','f','t','i','n','g'], "LIFTING".toList)]

/-- Attempt to match the letter-spaced pattern `p` (letters separated by
`\s+`) at the head of the text; on success return the remaining suffix.
The match is deterministic: `\s+` must consume the whole whitespace run
because the following pattern character is a letter. -/
def matchLS : List Char → List Char → Option (List Char)
  | [], _ => none
  | [p], c :: rest => if c.toLower == p then some rest else none
  | p :: ps, c :: rest =>
    if c.toLower == p then
      if (rest.takeWhile pyIsSpace).isEmpty then none
      else matchLS ps (rest.dropWhile pyIsSpace)
    else none
  | _, [] => none

/-- One pass of `re.sub` for a single letter-spaced pattern.
`prevIsWord` tracks whether the character before the current scan
position in the original string is a word character (for the leading
`\b`); after a successful match the scan continues on the original
string right after the pattern's last letter, which is a word
character. -/
def subLSAux (p rep : List Char) : Nat → Bool → List Char → List Char
  | _, _, [] => []
  | skip + 1, _, _ :: cs => subLSAux p rep skip true cs
  | 0, prevW, c :: cs =>
    match matchLS p (c :: cs) with
    | some rest =>
      if !prevW && (rest.isEmpty || !isWordChar (rest.headD ' ')) then
        rep ++ subLSAux p rep ((c :: cs).length - rest.length - 1) true cs
      else
        c :: subLSAux p rep 0 (isWordChar c) cs
    | none => c :: subLSAux p rep 0 (isWordChar c) cs

/-- `fix_letter_spacing` (`src/cleaner.py:28-32`): apply the thirteen
substitutions in table order. -/
def fix_letter_spacing (l : List Char) : List Char :=
  LETTER_SPACED_WORDS.foldl (fun acc pr => subLSAux pr.1 pr.2 0 false acc) l

/-- `re.sub(r'#{2,}', '', text)`: delete every run of two or more
hashes (the greedy quantifier consumes a maximal run). -/
def subHashAux : Bool → List Char → List Char
  | _, [] => []
  | true, c :: cs =>
    if c == '#' then subHashAux true cs else c :: subHashAux false cs
  | false, [c] => [c]
  | false, c :: d :: cs =>
    if c == '#' && d == '#' then subHashAux true cs
    else c :: subHashAux false (d :: cs)

/-- `re.sub(r'#{2,}', '', text)`: delete every run of two or more
hashes (the greedy quantifier consumes a maximal run; the `Bool` state
of `subHashAux` is "inside a deleted run"). -/
def subHashRuns (l : List Char) : List Char :=
  subHashAux false l

/-- `re.sub(r'\s#\s', ' ', text)`: a lone hash between whitespace
becomes a single space; the scan continues after the matched span. -/
def subLoneHash : List Char → List Char
  | a :: b :: c :: cs =>
    if b == '#' && pyIsSpace a && pyIsSpace c then ' ' :: subLoneHash cs
    else a :: subLoneHash (b :: c :: cs)
  | l => l

/-- Lookahead for `\s*:-\s*`: does the text start with a (possibly
empty) whitespace run followed by `:-`? -/
def wsThenColonDash : List Char → Bool
  | a :: b :: r => (a == ':' && b == '-') || (pyIsSpace a && wsThenColonDash (b :: r))
  | _ => false

/-- Scanner modes for the `\s*X\s*`-shaped substitutions: `normal`
scanning, `eat`ing the leading whitespace of a match that the lookahead
guaranteed, and `skip`ping the trailing whitespace of a replaced
match. -/
inductive SubMode : Type where
  | normal : SubMode
  | eat : SubMode
  | skip : SubMode

/-- `re.sub(r'\s*:-\s*', ': ', text)`: normalise the dash-colon label
separator, consuming surrounding whitespace.  The leftmost match begins
at the start of the whitespace run preceding `:-`. -/
def subColonAux : SubMode → List Char → List Char
  | _, [] => []
  | mode, [c] =>
    match mode with
    | .eat => []
    | .skip => if pyIsSpace c then [] else [c]
    | .normal => [c]
  | mode, a :: b :: r =>
    match mode with
    | .eat =>
      if a == ':' && b == '-' then ':' :: ' ' :: subColonAux .skip r
      else subColonAux .eat (b :: r)
    | .skip =>
      if pyIsSpace a then subColonAux .skip (b :: r)
      else if a == ':' && b == '-' then ':' :: ' ' :: subColonAux .skip r
      else a :: subColonAux .normal (b :: r)
    | .normal =>
      if a == ':' && b == '-' then ':' :: ' ' :: subColonAux .skip r
      else if pyIsSpace a && wsThenColonDash (b :: r) then subColonAux .eat (b :: r)
      else a :: subColonAux .normal (b :: r)

/-- `re.sub(r'\s*:-\s*', ': ', text)`. -/
def subColonDash (l : List Char) : List Char :=
  subColonAux .normal l

/-- `re.sub(r'<\s*([^>]+?)\s*>', lambda m: f"<{m.group(1).strip()}>", text)`:
at each `<`, the non-greedy group together with the surrounding `\s*`
spans to the first following `>`; the match requires at least one
character between the brackets; the replacement keeps the brackets and
strips the content.  When no match starts at a `<`, the scan advances
one character. -/
def hasGt : List Char → Bool
  | [] => false
  | c :: cs => c == '>' || hasGt cs

/-- Is the head character a `>` (the empty-placeholder test `<>`)? -/
def headIsGt : List Char → Bool
  | c :: _ => c == '>'
  | [] => false

/-- Scanner for the placeholder substitution: in the `none` state scan
normally; in the `some buf` state collect the bracket content (in
reverse) until the closing `>`. -/
def subPlaceholderAux : Option (List Char) → List Char → List Char
  | none, [] => []
  | none, c :: cs =>
    if c == '<' then
      if headIsGt cs then '<' :: subPlaceholderAux none cs
      else if hasGt cs then subPlaceholderAux (some []) cs
      else '<' :: subPlaceholderAux none cs
    else c :: subPlaceholderAux none cs
  | some buf, [] => '<' :: buf.reverse
  | some buf, c :: cs =>
    if c == '>' then '<' :: (pyStripWs buf.reverse ++ '>' :: subPlaceholderAux none cs)
    else subPlaceholderAux (some (c :: buf)) cs

/-- The placeholder substitution applied from the normal state (the
`some buf, []` case of the scanner is unreachable because collection
only starts when a closing `>` exists ahead). -/
def subPlaceholder (l : List Char) : List Char :=
  subPlaceholderAux none l

/-- The character set of `text.strip(' .,:;-#*')`. -/
def stripSet (c : Char) : Bool :=
  c == ' ' || c == '.' || c == ',' || c == ':' || c == ';' || c == '-' ||
  c == '#' || c == '*'

/-- `text.strip(' .,:;-#*')`. -/
def pyStripSet (l : List Char) : List Char :=
  stripBoth stripSet l

/-- `clean_text` (`src/cleaner.py:35-64`): strip, collapse whitespace,
fix known letter-spaced words, remove hash noise, normalise `:-`,
normalise bracketed placeholders, strip noise characters, strip.
A falsy input (the empty string; `None` and non-strings are outside the
model's type) yields `""`. -/
def clean_text (s : String) : String :=
  if s == "" then ""
  else
    let l := pyStripWs s.toList
    let l := collapseWs l
    let l := fix_letter_spacing l
    let l := subHashRuns l
    let l := subLoneHash l
    let l := subColonDash l
    let l := subPlaceholder l
    let l := pyStripSet l
    let l := pyStripWs l
    String.mk l

/-!
## `src/pdf_extractor.py`
-/

/-- `_TWO_COL_LABELS` (`src/pdf_extractor.py:33-39`). -/
def TWO_COL_LABELS : List (String × String) :=
  [("Order No.", "Order Number"),
   ("Order Date", "Order Date"),
   ("Release Date", "Release Date"),
   ("Contact Person", "Contact Person"),
   ("E-Mail", "Contact Email")]

/-- `lines[i] in _TWO_COL_LABELS`. -/
def isTwoColLabel (s : String) : Bool :=
  TWO_COL_LABELS.any (fun p => p.1 == s)

/-- `_TWO_COL_LABELS[label]`. -/
def twoColLabelName (s : String) : String :=
  dictGetD TWO_COL_LABELS s ""

/-- `re.match(r'^:-', line)`. -/
def startsDash (s : String) : Bool :=
  match s.toList with
  | ':' :: '-' :: _ => true
  | _ => false

/-- `re.sub(r'^:-\s*', '', line).strip()`. -/
def dashValue (s : String) : String :=
  String.mk (pyStripWs ((s.toList.drop 2).dropWhile pyIsSpace))

/-- The scan loop of `resolve_two_column_headers`
(`src/pdf_extractor.py:44-64`): on a known label, collect the run of
consecutive labels, then the run of consecutive `:-` value lines, pair
them positionally with `zip` (which truncates to the shorter run), store
each non-empty value under the label's canonical name, and continue
after the value run. -/
def resolveTwoColAux (lines : List String) (acc : List (String × String)) :
    List (String × String) :=
  match lines with
  | [] => acc
  | l :: rest =>
    if isTwoColLabel l then
      let labels := (l :: rest).takeWhile isTwoColLabel
      let afterLabels := (l :: rest).dropWhile isTwoColLabel
      let values := (afterLabels.takeWhile startsDash).map dashValue
      let afterValues := afterLabels.dropWhile startsDash
      let acc' := (labels.zip values).foldl
        (fun a p => if p.2 == "" then a else dictSet a (twoColLabelName p.1) p.2) acc
      resolveTwoColAux afterValues acc'
    else
      resolveTwoColAux rest acc
termination_by lines.length
decreasing_by
  · have h1 : (l :: rest).dropWhile isTwoColLabel = rest.dropWhile isTwoColLabel := by
      simp [List.dropWhile, *]
    have h2 := (List.dropWhile_sublist (l := rest) (p := isTwoColLabel)).length_le
    have h3 := (List.dropWhile_sublist (l := rest.dropWhile isTwoColLabel)
      (p := startsDash)).length_le
    rw [h1]
    simp only [List.length_cons]
    omega
  · simp only [List.length_cons]
    omega

/-- `resolve_two_column_headers` (`src/pdf_extractor.py:44-64`). -/
def resolve_two_column_headers (lines : List String) : List (String × String) :=
  resolveTwoColAux lines []

/-!
## `src/rule_extractor.py`

The extractors are modelled with the results of the `re` searches passed
in as oracle arguments (the Python `re` engine is external library
code); all control flow of the extractors themselves — source
precedence, conditional insertion, window association, deduplication and
the final non-empty filter — is modelled directly.
-/

/-- First-in-iteration-order lookup of `_kvp_get`: a prefix test on
lists. -/
def listIsPrefixB (p l : List Char) : Bool :=
  match p, l with
  | [], _ => true
  | _ :: _, [] => false
  | a :: as_, b :: bs => a == b && listIsPrefixB as_ bs

/-- Python `kw in k` (substring test). -/
def listIsInfixB (p l : List Char) : Bool :=
  match l with
  | [] => listIsPrefixB p []
  | _ :: t => listIsPrefixB p l || listIsInfixB p t

/-- Python substring containment `needle in hay`. -/
def strContains (hay needle : String) : Bool :=
  listIsInfixB needle.toList hay.toList

/-- `_kvp_get` (`src/rule_extractor.py:32-36`): the value of the first
key containing any keyword as a substring, else `""`. -/
def kvpGet (kvps : List (String × String)) (kws : List String) : String :=
  match kvps.find? (fun kv => kws.any (fun kw => strContains kv.1 kw)) with
  | some kv => kv.2
  | none => ""

/-- Python `a or b` on strings: the first operand when non-empty. -/
def orS (a b : String) : String :=
  if a == "" then b else a

/-- Results of the `re` searches of `_extract_header`
(`src/rule_extractor.py:43-93`); a `String` field is the (already
stripped) `_find` result, `""` when the pattern did not match; an
`Option` field is a `re.search` whose groups are read only on success. -/
structure HeaderOracle : Type where
  orderNoPat : String
  orderDatePat : String
  releaseDatePat : String
  validity : Option (String × String)
  vendorCodePat : String
  vendorNamePat : String
  paymentPat : String
  gst : Option String
  emailPat : String
  ceilInr : String
  ceilPlain : String

/-- `_extract_header` (`src/rule_extractor.py:43-93`): two-column
resolver over key/value pairs over free-text patterns, then the final
`{k: v for k, v in h.items() if v}` filter. -/
def extract_header (two_col : List (String × String)) (kvps : List (String × String))
    (o : HeaderOracle) : List (String × String) :=
  ([("Order Number",
      orS (dictGetD two_col "Order Number" "")
        (orS (kvpGet kvps ["order no", "contract number", "order number"]) o.orderNoPat)),
    ("Order Date",
      orS (dictGetD two_col "Order Date" "")
        (orS (kvpGet kvps ["order date"]) o.orderDatePat)),
    ("Release Date",
      orS (dictGetD two_col "Release Date" "")
        (orS (kvpGet kvps ["release date"]) o.releaseDatePat))]
   ++ (match o.validity with
       | some fv => [("Validity From", fv.1), ("Validity To", fv.2)]
       | none => [])
   ++ [("Vendor Code", orS (kvpGet kvps ["vendor code"]) o.vendorCodePat),
       ("Vendor Name", orS (kvpGet kvps ["vendor name"]) o.vendorNamePat),
       ("Payment Terms", orS (kvpGet kvps ["payment"]) o.paymentPat),
       ("GST Info", match o.gst with | some g => pyStripStr g | none => ""),
       ("Contact Email", orS (dictGetD two_col "Contact Email" "") o.emailPat),
       ("Order Ceiling Value (INR)", orS o.ceilInr o.ceilPlain)]
  ).filter (fun kv => !(kv.2 == ""))

/-- Results of the `re` searches of `_extract_pricing`
(`src/rule_extractor.py:170-195`). -/
structure PricingOracle : Type where
  diesel : String
  hsd : Option (String × String)
  hsdSource : String
  gross : String
  items : List (String × String)
  ceilInr : String
  ceilPlain : String
  total : String

/-- The `Item i Rate` / `Item i Unit` entries of `_extract_pricing`,
numbered from 1 in match order (`rm.group(2).strip()` on the unit). -/
def itemEntries (items : List (String × String)) : List (String × String) :=
  items.enum.flatMap (fun iru =>
    [("Item " ++ toString (iru.1 + 1) ++ " Rate", iru.2.1),
     ("Item " ++ toString (iru.1 + 1) ++ " Unit", pyStripStr iru.2.2)])

/-- `_extract_pricing` (`src/rule_extractor.py:170-195`) with the final
non-empty filter. -/
def extract_pricing (o : PricingOracle) : List (String × String) :=
  ([("Diesel Component %", o.diesel)]
   ++ (match o.hsd with
       | some bd => [("Base HSD (INR/L)", bd.1), ("HSD Reference Date", bd.2)]
       | none => [])
   ++ [("HSD Source", o.hsdSource), ("Gross Price (INR)", o.gross)]
   ++ itemEntries o.items
   ++ [("Order Ceiling Value (INR)", orS o.ceilInr o.ceilPlain),
       ("Total Order Value (INR)", o.total)]
  ).filter (fun kv => !(kv.2 == ""))

/-- Lookahead for `\s*\|\s*`: a (possibly empty) whitespace run
followed by `|`. -/
def wsThenPipe : List Char → Bool
  | c :: cs => (c == '|') || (pyIsSpace c && wsThenPipe cs)
  | [] => false

/-- `re.sub(r'\s*\|\s*', ' ', x)`: pipe separators (with surrounding
whitespace) become single spaces; same mode discipline as
`subColonAux`. -/
def subPipeAux : SubMode → List Char → List Char
  | _, [] => []
  | mode, c :: cs =>
    match mode with
    | .eat =>
      if c == '|' then ' ' :: subPipeAux .skip cs else subPipeAux .eat cs
    | .skip =>
      if pyIsSpace c then subPipeAux .skip cs
      else if c == '|' then ' ' :: subPipeAux .skip cs
      else c :: subPipeAux .normal cs
    | .normal =>
      if c == '|' then ' ' :: subPipeAux .skip cs
      else if pyIsSpace c && wsThenPipe cs then subPipeAux .eat cs
      else c :: subPipeAux .normal cs

/-- `re.sub(r'\s*\|\s*', ' ', x)`. -/
def subPipeWs (l : List Char) : List Char :=
  subPipeAux .normal l

/-- `re.sub(r'\s+', ' ', re.sub(r'\s*\|\s*', ' ', x)).strip()` — the
text-block cleanup idiom of `_extract_text_blocks`. -/
def cleanBlock (s : String) : String :=
  pyStripStr (String.mk (collapseWs (subPipeWs s.toList)))

/-- Results of the `re` searches of `_extract_text_blocks`
(`src/rule_extractor.py:202-251`): `scope` is `sm.group(1)`;
`safetySlice` is `full_text[safm.start() : safm.start()+3200]`;
`safetySents` the `re.findall` fallback sentences; `exitOne`/`exitTwo`
the primary and fallback exit-clause groups; `exitThree` the `_find`
result of the last-resort pattern (`""` when unmatched); `payment` the
payment-detail group. -/
structure TextBlocksOracle : Type where
  scope : Option String
  safetySlice : Option String
  safetySents : List String
  exitOne : Option String
  exitTwo : Option String
  exitThree : String
  payment : Option String

/-- `_extract_text_blocks` (`src/rule_extractor.py:202-251`) with the
final non-empty filter.  The safety branch reproduces
`cut = raw_s.rfind('|', 0, 3000); raw_s = raw_s[:cut] if cut > 0 else
raw_s[:3000]`. -/
def extract_text_blocks (o : TextBlocksOracle) : List (String × String) :=
  ((match o.scope with
    | some g => [("Scope of Work", strTake (cleanBlock g) 2000)]
    | none => [])
   ++ (match o.safetySlice with
       | some raw =>
         let cs := raw.toList
         let keep :=
           match pyRfindChar (cs.take 3000) '|' with
           | some cut => if cut > 0 then cs.take cut else cs.take 3000
           | none => cs.take 3000
         [("Safety Norms", cleanBlock (String.mk keep))]
       | none =>
         if o.safetySents.isEmpty then []
         else [("Safety Norms",
                pyJoin " " ((o.safetySents.take 10).map pyStripStr))])
   ++ [("Exit Clause",
        match o.exitOne, o.exitTwo with
        | some g, _ => strTake (cleanBlock g) 2000
        | none, some g => strTake (cleanBlock g) 2000
        | none, none => orS o.exitThree "Not found")]
   ++ (match o.payment with
       | some g => [("Payment Terms Detail", strTake (cleanBlock g) 1500)]
       | none => [])
  ).filter (fun kv => !(kv.2 == ""))

/-- One match of the repeating line-item header pattern of
`_extract_services` (`src/rule_extractor.py:101-104`): the four captured
groups, the match end (`hm.end()`) and the match start (`hm.start()`). -/
structure ItemHeaderMatch : Type where
  srNo : String
  srvLn : String
  srvNo : String
  rawBrief : String
  startPos : Nat
  endPos : Nat

/-- One `Total Price .../... INR` match: the two groups and the match
start. -/
structure RateMatch : Type where
  rate : String
  unit : String
  startPos : Nat

/-- One `Service Long Text` match: the captured group and the match
start. -/
structure LongTextMatch : Type where
  body : String
  startPos : Nat

/-- One extracted service line (`src/rule_extractor.py:156-160`). -/
structure ServiceLine : Type where
  srNo : String
  srvLn : String
  srvNo : String
  brief : String
  longText : String
  rate : String
  unit : String

/-- The long-text cleanup inside the window loop
(`src/rule_extractor.py:142-146`): split the raw group on `|`, strip
each segment, keep the non-empty segments longer than 10 characters not
matching the two-column noise pattern (`noiseMatch` models that `re`
match), join with spaces, collapse whitespace, strip. -/
def longTextProcess (noiseMatch : String → Bool) (raw : String) : String :=
  let good := ((splitOnPipe raw.toList).map (fun cs => String.mk (pyStripWs cs))).filter
    (fun s => !(s == "") && !noiseMatch s && decide (10 < s.length))
  pyStripStr (String.mk (collapseWs (pyJoin " " good).toList))

/-- Pair each header match with the start of the next one (the end of
the text for the last match): the association window
`[hm.end(), next_hdr.start())`. -/
def svcWindows : List ItemHeaderMatch → Nat → List (ItemHeaderMatch × Nat)
  | [], _ => []
  | [h], textLen => [(h, textLen)]
  | h :: h2 :: t, textLen => (h, h2.startPos) :: svcWindows (h2 :: t) textLen

/-- The body of the per-header loop of `_extract_services`
(`src/rule_extractor.py:119-160`): brief-description cleanup
(`briefClean` models the two `re.sub` noise strips on group 4), then the
first long-text match and the first rate match whose start falls in the
window. -/
def mkServiceLine (briefClean : String → String) (noiseMatch : String → Bool)
    (longTxts : List LongTextMatch) (rates : List RateMatch)
    (hw : ItemHeaderMatch × Nat) : ServiceLine :=
  let hm := hw.1
  let nextHdr := hw.2
  let longText :=
    match longTxts.find? (fun lt => decide (hm.endPos ≤ lt.startPos ∧ lt.startPos < nextHdr)) with
    | some lt => longTextProcess noiseMatch lt.body
    | none => ""
  let rateUnit :=
    match rates.find? (fun r => decide (hm.endPos ≤ r.startPos ∧ r.startPos < nextHdr)) with
    | some r => (r.rate, pyStripStr r.unit)
    | none => ("", "")
  { srNo := hm.srNo, srvLn := hm.srvLn, srvNo := hm.srvNo,
    brief := briefClean hm.rawBrief, longText := longText,
    rate := rateUnit.1, unit := rateUnit.2 }

/-- The dedup list comprehension of `_extract_services`
(`src/rule_extractor.py:162-163`): keep a service line only when its
service number has not been seen yet. -/
def dedupBySrvNo : List ServiceLine → List String → List ServiceLine
  | [], _ => []
  | s :: rest, seen =>
    if seen.contains s.srvNo then dedupBySrvNo rest seen
    else s :: dedupBySrvNo rest (s.srvNo :: seen)

/-- `_extract_services` (`src/rule_extractor.py:100-163`), with the
match lists of the three compiled patterns passed as oracles in document
order (as `finditer` yields them). -/
def extract_services (briefClean : String → String) (noiseMatch : String → Bool)
    (headers : List ItemHeaderMatch) (rates : List RateMatch)
    (longTxts : List LongTextMatch) (textLen : Nat) : List ServiceLine :=
  match headers with
  | [] => []
  | _ =>
    dedupBySrvNo
      ((svcWindows headers textLen).map (mkServiceLine briefClean noiseMatch longTxts rates))
      []

/-!
## `src/llm_fallback.py`
-/

/-- `_MANDATORY_HEADER_FIELDS` (a Python `set`; only membership matters). -/
def MANDATORY_HEADER_FIELDS : List String :=
  ["Order Number", "Order Date", "Validity From", "Validity To",
   "Vendor Code", "Payment Terms"]

/-- `_MANDATORY_PRICING_FIELDS`. -/
def MANDATORY_PRICING_FIELDS : List String :=
  ["Diesel Component %", "Base HSD (INR/L)", "Gross Price (INR)"]

/-- The structured record handed between the rule extractor and the LLM
gap filler.  Section values are `Json` so that merged records (whose
values may come from the parsed LLM response) share the type; rule
extraction only ever puts `.str` values into the mapping sections. -/
structure WorkRecord : Type where
  header : List (String × Json)
  services : Json
  pricing : List (String × Json)
  text_blocks : List (String × Json)
  change_orders : Json

/-- `not header.get(f)` — a field is missing when the key is absent or
its value is falsy. -/
def fieldMissing (d : List (String × Json)) (f : String) : Bool :=
  match dictGet d f with
  | none => true
  | some v => !jsonTruthy v

/-- `should_use_llm` (`src/llm_fallback.py:27-48`): trigger the LLM when a
mandatory header or pricing field is missing or when no services were
extracted. -/
def should_use_llm (extracted_data : WorkRecord) : Bool :=
  let missing_header := MANDATORY_HEADER_FIELDS.filter
    (fun f => fieldMissing extracted_data.header f)
  let missing_pricing := MANDATORY_PRICING_FIELDS.filter
    (fun f => fieldMissing extracted_data.pricing f)
  if !missing_header.isEmpty || !missing_pricing.isEmpty then
    true
  else if !jsonTruthy extracted_data.services then
    true
  else
    false

/-- `_parse_llm_json` (`src/llm_fallback.py:70-85`).  `stripFences`
models the two stdlib `re.sub` calls that remove Markdown code fences and
the surrounding `str.strip()` calls; `loads` models stdlib `json.loads`
(`none` for a `JSONDecodeError`).  Both are external library code, so the
theorems quantify over them.  After fence stripping the code tries a
direct parse; on failure it extracts the span from the first `{` to the
last `}` and re-parses; if no such span exists it raises (modelled as
`none`). -/
def parse_llm_json (stripFences : String → String) (loads : String → Option Json)
    (raw : String) : Option Json :=
  let r := stripFences raw
  match loads r with
  | some j => some j
  | none =>
    let cs := r.toList
    match pyFindChar cs '{', pyRfindChar cs '}' with
    | some s, some e =>
      if s < e + 1 then loads (String.mk (pySlice cs s (e + 1))) else none
    | _, _ => none

/-- The merge loop of `_merge` (`src/llm_fallback.py:99-103`):
`merged = dict(llm_section); for k, v in rule_section.items(): if v:
merged[k] = v`. -/
def mergeLoop (init : List (String × Json)) (rule_section : List (String × Json)) :
    List (String × Json) :=
  rule_section.foldl (fun m kv => if jsonTruthy kv.2 then dictSet m kv.1 kv.2 else m) init

/-- `_merge` (`src/llm_fallback.py:88-104`) at the level of one section:
if the LLM value for the section is not a mapping, return the rule
section unchanged; otherwise start from the LLM mapping and overwrite
with every non-empty rule value. -/
def mergeSection (rule_section : List (String × Json)) (llm_section : Json) :
    List (String × Json) :=
  match llm_section with
  | .obj fields => mergeLoop fields rule_section
  | _ => rule_section

/-- The post-parse merge body of `enhance_with_llm`
(`src/llm_fallback.py:138-161`). -/
def applyLlmMerge (existing : WorkRecord) (llm_output : Json) : WorkRecord :=
  let merged1 :=
    { existing with
      header := mergeSection existing.header (jsonObjGetD llm_output "header"),
      pricing := mergeSection existing.pricing (jsonObjGetD llm_output "pricing") }
  let merged2 :=
    if jsonTruthy (jsonObjGetD llm_output "text_blocks") then
      { merged1 with
        text_blocks :=
          mergeLoop (jsonFields (jsonObjGetD llm_output "text_blocks"))
            (existing.text_blocks.filter (fun kv => jsonTruthy kv.2)) }
    else merged1
  let merged3 :=
    if !jsonTruthy existing.services && jsonTruthy (jsonObjGetD llm_output "services") then
      { merged2 with services := jsonObjGetD llm_output "services" }
    else merged2
  if jsonTruthy existing.change_orders then
    { merged3 with change_orders := existing.change_orders }
  else if jsonTruthy (jsonObjGetD llm_output "change_orders") then
    { merged3 with change_orders := jsonObjGetD llm_output "change_orders" }
  else merged3

/-- `enhance_with_llm` (`src/llm_fallback.py:107-161`).  `callResult`
is the outcome of the Azure OpenAI chat-completion call (`none` when the
call raised, `some content` for the returned message content); the
`try` block catches every exception of the call and of `_parse_llm_json`
and returns `existing_data` unchanged. -/
def enhance_with_llm (stripFences : String → String) (loads : String → Option Json)
    (callResult : Option String) (existing_data : WorkRecord) : WorkRecord :=
  match callResult with
  | none => existing_data
  | some content =>
    match parse_llm_json stripFences loads (pyStripStr content) with
    | none => existing_data
    | some llm_output => applyLlmMerge existing_data llm_output

/-!
## Adjacency predicates for the cleaner proofs

`clean_text`'s stages are related through facts about adjacent character
pairs: a string is whitespace-collapsed when no two adjacent characters
are both whitespace, and the `:-` substitution is the identity exactly
when no `':'` is immediately followed by `'-'`.
-/

/-- Every adjacent pair of the list satisfies `P`. -/
def pairOkB (P : Char → Char → Bool) : List Char → Bool
  | a :: b :: t => P a b && pairOkB P (b :: t)
  | _ => true

/-- No two adjacent whitespace characters (the string is
whitespace-collapsed). -/
def noWsPair (l : List Char) : Bool :=
  pairOkB (fun a b => !(pyIsSpace a && pyIsSpace b)) l

/-- No `':'` immediately followed by `'-'`. -/
def noCD (l : List Char) : Bool :=
  pairOkB (fun a b => !(a == ':' && b == '-')) l

/-- Every whitespace character is a plain space. -/
def spaceOnly (l : List Char) : Bool :=
  l.all (fun c => !pyIsSpace c || c == ' ')

/-!
## Helper lemmas: Python-dict operations
-/

theorem dictGet_cons (p : String × α) (t : List (String × α)) (k : String) :
    dictGet (p :: t) k = if p.1 == k then some p.2 else dictGet t k := by
  simp only [dictGet, List.find?]
  cases h : (p.1 == k) <;> simp [h]

theorem dictGet_append (d₁ d₂ : List (String × α)) (k : String) :
    dictGet (d₁ ++ d₂) k =
      match dictGet d₁ k with
      | some v => some v
      | none => dictGet d₂ k := by
  induction d₁ with
  | nil => simp [dictGet]
  | cons p t ih =>
    rw [List.cons_append, dictGet_cons, dictGet_cons]
    cases h : (p.1 == k) <;> simp [ih]

theorem dictGet_setMap_self (d : List (String × α)) (k : String) (v : α)
    (h : d.any (fun q => q.1 == k) = true) :
    dictGet (d.map (fun p => if p.1 == k then (k, v) else p)) k = some v := by
  induction d with
  | nil => simp at h
  | cons p t ih =>
    rw [List.map_cons]
    by_cases hp : p.1 = k
    · simp [dictGet_cons, hp]
    · have hp' : (p.1 == k) = false := by simp [hp]
      simp only [hp', Bool.false_eq_true, if_false]
      rw [dictGet_cons]
      simp only [hp', Bool.false_eq_true, if_false]
      simp only [List.any_cons, hp', Bool.false_or] at h
      exact ih h

theorem dictGet_setMap_ne (d : List (String × α)) (k k' : String) (v : α)
    (h : k' ≠ k) :
    dictGet (d.map (fun p => if p.1 == k' then (k', v) else p)) k = dictGet d k := by
  induction d with
  | nil => rfl
  | cons p t ih =>
    rw [List.map_cons]
    by_cases hp : p.1 = k'
    · have hp' : (p.1 == k') = true := by simp [hp]
      simp only [hp', if_true]
      rw [dictGet_cons, dictGet_cons]
      have hk : (k' == k) = false := by simp [h]
      have hpk : (p.1 == k) = false := by simp [hp, h]
      simp only [hk, hpk, Bool.false_eq_true, if_false]
      exact ih
    · have hp' : (p.1 == k') = false := by simp [hp]
      simp only [hp', Bool.false_eq_true, if_false]
      rw [dictGet_cons, dictGet_cons]
      by_cases hq : p.1 = k
      · have hq' : (p.1 == k) = true := by simp [hq]
        simp only [hq', if_true]
      · have hq' : (p.1 == k) = false := by simp [hq]
        simp only [hq', Bool.false_eq_true, if_false]
        exact ih

theorem dictGet_dictSet_self (d : List (String × α)) (k : String) (v : α) :
    dictGet (dictSet d k v) k = some v := by
  rw [dictSet]
  by_cases h : d.any (fun q => q.1 == k) = true
  · rw [if_pos h]
    exact dictGet_setMap_self d k v h
  · rw [if_neg h, dictGet_append]
    have hd : List.find? (fun p => p.1 == k) d = none := by
      rw [List.find?_eq_none]
      intro p hp hc
      exact h (List.any_eq_true.mpr ⟨p, hp, hc⟩)
    simp [dictGet, hd, List.find?]

theorem dictGet_dictSet_ne (d : List (String × α)) (k k' : String) (v : α)
    (h : k' ≠ k) : dictGet (dictSet d k' v) k = dictGet d k := by
  rw [dictSet]
  by_cases hany : d.any (fun q => q.1 == k') = true
  · rw [if_pos hany]
    exact dictGet_setMap_ne d k k' v h
  · rw [if_neg hany, dictGet_append]
    have hk : (k' == k) = false := by simp [h]
    cases hd : dictGet d k <;> simp [dictGet, List.find?, hk]

/-!
## Helper lemmas: the `_merge` loop
-/

theorem dictGet_mergeLoop_not_mem (rule : List (String × Json)) (k : String) :
    ∀ init : List (String × Json), (∀ kv ∈ rule, kv.1 ≠ k) →
      dictGet (mergeLoop init rule) k = dictGet init k := by
  induction rule with
  | nil => intro init _; rfl
  | cons kv t ih =>
    intro init h
    have hkv : kv.1 ≠ k := h kv (List.mem_cons_self kv t)
    have ht : ∀ q ∈ t, q.1 ≠ k := fun q hq => h q (List.mem_cons_of_mem kv hq)
    simp only [mergeLoop, List.foldl_cons]
    by_cases htr : jsonTruthy kv.2 = true
    · rw [if_pos htr]
      have := ih (dictSet init kv.1 kv.2) ht
      simp only [mergeLoop] at this
      rw [this, dictGet_dictSet_ne _ _ _ _ hkv]
    · rw [if_neg htr]
      exact ih init ht

theorem dictGet_mergeLoop_mem (rule : List (String × Json)) (k : String) (v : Json) :
    ∀ init : List (String × Json), NodupKeys rule →
      dictGet rule k = some v → jsonTruthy v = true →
      dictGet (mergeLoop init rule) k = some v := by
  induction rule with
  | nil => intro init _ hget _; simp [dictGet] at hget
  | cons kv t ih =>
    intro init hnd hget htr
    rw [dictGet_cons] at hget
    simp only [NodupKeys, List.map_cons, List.nodup_cons] at hnd
    obtain ⟨hnotin, hndt⟩ := hnd
    simp only [mergeLoop, List.foldl_cons]
    by_cases hp : kv.1 = k
    · have hp' : (kv.1 == k) = true := by simp [hp]
      rw [if_pos hp'] at hget
      obtain rfl : kv.2 = v := by injection hget
      rw [if_pos htr]
      have hrest : ∀ q ∈ t, q.1 ≠ k := by
        intro q hq hc
        apply hnotin
        rw [hp, ← hc]
        exact List.mem_map_of_mem Prod.fst hq
      have := dictGet_mergeLoop_not_mem t k (dictSet init kv.1 kv.2) hrest
      simp only [mergeLoop] at this
      rw [this, hp, dictGet_dictSet_self]
    · have hp' : (kv.1 == k) = false := by simp [hp]
      rw [if_neg (by simp [hp'])] at hget
      by_cases htr2 : jsonTruthy kv.2 = true
      · rw [if_pos htr2]
        exact ih (dictSet init kv.1 kv.2) hndt hget htr
      · rw [if_neg htr2]
        exact ih init hndt hget htr

/-- Rule values win in `_merge` whenever non-empty: the section-level
core shared by the header/pricing non-regression results. -/
theorem dictGet_mergeSection (rule : List (String × Json)) (llm : Json)
    (k : String) (v : String) (hnd : NodupKeys rule)
    (hget : dictGet rule k = some (Json.str v)) (hne : v ≠ "") :
    dictGet (mergeSection rule llm) k = some (Json.str v) := by
  have htr : jsonTruthy (Json.str v) = true := by simp [jsonTruthy, hne]
  cases llm with
  | obj f => exact dictGet_mergeLoop_mem rule k (Json.str v) f hnd hget htr
  | null => exact hget
  | bool b => exact hget
  | num n => exact hget
  | str s => exact hget
  | arr xs => exact hget

/-!
## The claims
-/

/-- C1: For the header and pricing sections, merging LLM output into
the rule-extracted record never overwrites a confident rule value: for
every key `k`, if the rule-extracted section maps `k` to a non-empty
string then the merged section maps `k` to exactly that rule value,
whatever the language model returned for `k` (and whatever the call
outcome was). -/
theorem merge_non_regression (stripFences : String → String)
    (loads : String → Option Json) (callResult : Option String)
    (existing : WorkRecord) (k : String) (v : String)
    (hndH : NodupKeys existing.header) (hndP : NodupKeys existing.pricing)
    (hv : v ≠ "") :
    (dictGet existing.header k = some (Json.str v) →
      dictGet (enhance_with_llm stripFences loads callResult existing).header k =
        some (Json.str v)) ∧
    (dictGet existing.pricing k = some (Json.str v) →
      dictGet (enhance_with_llm stripFences loads callResult existing).pricing k =
        some (Json.str v)) := by
  cases callResult with
  | none => exact ⟨fun h => h, fun h => h⟩
  | some content =>
    rw [enhance_with_llm]
    cases hp : parse_llm_json stripFences loads (pyStripStr content) with
    | none => exact ⟨fun h => h, fun h => h⟩
    | some llm_output =>
      constructor
      · intro hget
        have hh : (applyLlmMerge existing llm_output).header =
            mergeSection existing.header (jsonObjGetD llm_output "header") := by
          simp only [applyLlmMerge]
          repeat' split
          all_goals rfl
        rw [hh]
        exact dictGet_mergeSection _ _ _ _ hndH hget hv
      · intro hget
        have hh : (applyLlmMerge existing llm_output).pricing =
            mergeSection existing.pricing (jsonObjGetD llm_output "pricing") := by
          simp only [applyLlmMerge]
          repeat' split
          all_goals rfl
        rw [hh]
        exact dictGet_mergeSection _ _ _ _ hndP hget hv

theorem merge_non_regression_witness :
    dictGet (enhance_with_llm (fun s => s)
      (fun _ => some (Json.obj
        [("header", Json.obj [("Order Number", Json.str "WRONG-LLM-VALUE")]),
         ("pricing", Json.obj [("Gross Price (INR)", Json.str "999")])]))
      (some "response")
      { header := [("Order Number", Json.str "ABC123")],
        services := Json.arr [],
        pricing := [("Gross Price (INR)", Json.str "5,00,000.00")],
        text_blocks := [],
        change_orders := Json.arr [] }).header "Order Number" =
      some (Json.str "ABC123") :=
  (merge_non_regression (fun s => s)
    (fun _ => some (Json.obj
      [("header", Json.obj [("Order Number", Json.str "WRONG-LLM-VALUE")]),
       ("pricing", Json.obj [("Gross Price (INR)", Json.str "999")])]))
    (some "response")
    { header := [("Order Number", Json.str "ABC123")],
      services := Json.arr [],
      pricing := [("Gross Price (INR)", Json.str "5,00,000.00")],
      text_blocks := [],
      change_orders := Json.arr [] }
    "Order Number" "ABC123" (by decide) (by decide) (by decide)).1 rfl

/-- C2: The LLM gap-filler is fail-open: when the chat-completion call
raises (`callResult = none`) or its response does not parse as JSON
(`_parse_llm_json` fails on the stripped content), `enhance_with_llm`
returns its input record unchanged in every section. -/
theorem fill_gaps_fail_open (stripFences : String → String)
    (loads : String → Option Json) (existing : WorkRecord) (raw : String) :
    enhance_with_llm stripFences loads none existing = existing ∧
    (parse_llm_json stripFences loads (pyStripStr raw) = none →
      enhance_with_llm stripFences loads (some raw) existing = existing) := by
  refine ⟨rfl, fun h => ?_⟩
  rw [enhance_with_llm, h]

/-- C10: If the LLM output's value for the header or pricing key is not
a mapping (a list, a string, a number, a boolean or null), `_merge`
returns the rule-extracted section unchanged, so a malformed LLM section
can never alter or remove any rule-extracted field. -/
theorem merge_malformed_llm_section (rule : List (String × Json))
    (llm_section : Json) (h : ∀ f, llm_section ≠ Json.obj f) :
    mergeSection rule llm_section = rule := by
  cases llm_section with
  | obj f => exact absurd rfl (h f)
  | null => rfl
  | bool b => rfl
  | num n => rfl
  | str s => rfl
  | arr xs => rfl

theorem merge_malformed_llm_section_witness :
    mergeSection [("Order Number", Json.str "ABC123")]
      (Json.arr [Json.str "not a mapping"]) =
      [("Order Number", Json.str "ABC123")] :=
  merge_malformed_llm_section _ _ (fun _ hc => Json.noConfusion hc)

/-!
## The gap detector
-/

theorem dictGet_shape (d : List (String × Json)) (k : String) (v : Json)
    (hshape : ∀ kv ∈ d, ∃ s, kv.2 = Json.str s)
    (hg : dictGet d k = some v) : ∃ s, v = Json.str s := by
  rw [dictGet] at hg
  cases hf : List.find? (fun p => p.1 == k) d with
  | none => rw [hf] at hg; cases hg
  | some p =>
    rw [hf] at hg
    obtain rfl : p.2 = v := by injection hg
    exact hshape p (List.mem_of_find?_eq_some hf)

theorem fieldMissing_iff (d : List (String × Json)) (f : String)
    (hshape : ∀ kv ∈ d, ∃ s, kv.2 = Json.str s) :
    fieldMissing d f = true ↔
      dictGet d f = none ∨ dictGet d f = some (Json.str "") := by
  rw [fieldMissing]
  cases hg : dictGet d f with
  | none => simp
  | some v =>
    obtain ⟨s, rfl⟩ := dictGet_shape d f v hshape hg
    simp only [jsonTruthy, Bool.not_not]
    constructor
    · intro h
      right
      have : s = "" := by simpa using h
      rw [this]
    · intro h
      rcases h with h | h
      · cases h
      · have : s = "" := by
          have := Option.some.inj h
          injection this
        simp [this]

theorem missing_filter_iff (s : List String) (d : List (String × Json)) :
    ((s.filter (fun f => fieldMissing d f)).isEmpty = false ↔
      ∃ f ∈ s, fieldMissing d f = true) := by
  rw [List.isEmpty_eq_false_iff_exists_mem]
  constructor
  · rintro ⟨f, hf⟩
    rw [List.mem_filter] at hf
    exact ⟨f, hf.1, hf.2⟩
  · rintro ⟨f, hf, hm⟩
    exact ⟨f, List.mem_filter.mpr ⟨hf, hm⟩⟩

/-- C3: The gap detector fires exactly on materially incomplete records:
`should_use_llm` is true iff some mandatory header field is missing or
empty, or some mandatory pricing field is missing or empty, or the
services list is empty — and false otherwise.  (The boundary instances
of the claim are the two sides of the equivalence; the witness
instantiates both.) -/
theorem gap_detector_boundary (d : WorkRecord) (svcs : List Json)
    (hsv : d.services = Json.arr svcs)
    (hH : ∀ kv ∈ d.header, ∃ s, kv.2 = Json.str s)
    (hP : ∀ kv ∈ d.pricing, ∃ s, kv.2 = Json.str s) :
    (should_use_llm d = true ↔
      (∃ f ∈ MANDATORY_HEADER_FIELDS,
        dictGet d.header f = none ∨ dictGet d.header f = some (Json.str "")) ∨
      (∃ f ∈ MANDATORY_PRICING_FIELDS,
        dictGet d.pricing f = none ∨ dictGet d.pricing f = some (Json.str "")) ∨
      svcs = []) := by
  have hHiff : ∀ f, fieldMissing d.header f = true ↔
      dictGet d.header f = none ∨ dictGet d.header f = some (Json.str "") :=
    fun f => fieldMissing_iff d.header f hH
  have hPiff : ∀ f, fieldMissing d.pricing f = true ↔
      dictGet d.pricing f = none ∨ dictGet d.pricing f = some (Json.str "") :=
    fun f => fieldMissing_iff d.pricing f hP
  rw [should_use_llm]
  simp only [hsv, jsonTruthy]
  by_cases h1 : ((MANDATORY_HEADER_FIELDS.filter
      (fun f => fieldMissing d.header f)).isEmpty = false) ∨
      ((MANDATORY_PRICING_FIELDS.filter
      (fun f => fieldMissing d.pricing f)).isEmpty = false)
  · have hcond : (!(MANDATORY_HEADER_FIELDS.filter
        (fun f => fieldMissing d.header f)).isEmpty ||
        !(MANDATORY_PRICING_FIELDS.filter
        (fun f => fieldMissing d.pricing f)).isEmpty) = true := by
      rcases h1 with h | h <;> simp [h]
    rw [if_pos hcond]
    simp only [true_iff]
    rcases h1 with h | h
    · left
      obtain ⟨f, hf, hm⟩ := (missing_filter_iff _ _).mp h
      exact ⟨f, hf, (hHiff f).mp hm⟩
    · right; left
      obtain ⟨f, hf, hm⟩ := (missing_filter_iff _ _).mp h
      exact ⟨f, hf, (hPiff f).mp hm⟩
  · push_neg at h1
    obtain ⟨he1, he2⟩ := h1
    have he1' : (MANDATORY_HEADER_FIELDS.filter
        (fun f => fieldMissing d.header f)).isEmpty = true := by
      cases hx : (MANDATORY_HEADER_FIELDS.filter
          (fun f => fieldMissing d.header f)).isEmpty
      · exact absurd hx he1
      · rfl
    have he2' : (MANDATORY_PRICING_FIELDS.filter
        (fun f => fieldMissing d.pricing f)).isEmpty = true := by
      cases hx : (MANDATORY_PRICING_FIELDS.filter
          (fun f => fieldMissing d.pricing f)).isEmpty
      · exact absurd hx he2
      · rfl
    have hno1 : ¬∃ f ∈ MANDATORY_HEADER_FIELDS,
        dictGet d.header f = none ∨ dictGet d.header f = some (Json.str "") := by
      rintro ⟨f, hf, hc⟩
      have : fieldMissing d.header f = true := (hHiff f).mpr hc
      have hne := (missing_filter_iff MANDATORY_HEADER_FIELDS d.header).mpr ⟨f, hf, this⟩
      rw [he1'] at hne
      cases hne
    have hno2 : ¬∃ f ∈ MANDATORY_PRICING_FIELDS,
        dictGet d.pricing f = none ∨ dictGet d.pricing f = some (Json.str "") := by
      rintro ⟨f, hf, hc⟩
      have : fieldMissing d.pricing f = true := (hPiff f).mpr hc
      have hne := (missing_filter_iff MANDATORY_PRICING_FIELDS d.pricing).mpr ⟨f, hf, this⟩
      rw [he2'] at hne
      cases hne
    have hcond : (!(MANDATORY_HEADER_FIELDS.filter
        (fun f => fieldMissing d.header f)).isEmpty ||
        !(MANDATORY_PRICING_FIELDS.filter
        (fun f => fieldMissing d.pricing f)).isEmpty) = false := by
      simp [he1', he2']
    rw [if_neg (by simp [hcond])]
    cases hsvc : svcs.isEmpty
    · have hsvne : svcs ≠ [] := by
        intro hx; rw [hx] at hsvc; cases hsvc
      simp only [hsvc, Bool.not_false, if_false]
      constructor
      · intro hx; cases hx
      · rintro (h | h | h)
        · exact absurd h hno1
        · exact absurd h hno2
        · exact absurd h hsvne
    · have hsveq : svcs = [] := by
        cases svcs with
        | nil => rfl
        | cons a t => cases hsvc
      simp only [hsvc, Bool.not_true, if_true]
      simp [hsveq]

theorem gap_detector_boundary_witness :
    should_use_llm
      { header := [("Order Number", Json.str "4500000001"),
                   ("Validity From", Json.str "01.10.2024"),
                   ("Validity To", Json.str "30.09.2026"),
                   ("Vendor Code", Json.str "V001"),
                   ("Payment Terms", Json.str "60 Days")],
        services := Json.arr [Json.obj []],
        pricing := [("Diesel Component %", Json.str "33"),
                    ("Base HSD (INR/L)", Json.str "88.85"),
                    ("Gross Price (INR)", Json.str "100.00")],
        text_blocks := [], change_orders := Json.arr [] } = true ∧
    should_use_llm
      { header := [("Order Number", Json.str "4500000001"),
                   ("Order Date", Json.str "26.09.2024"),
                   ("Validity From", Json.str "01.10.2024"),
                   ("Validity To", Json.str "30.09.2026"),
                   ("Vendor Code", Json.str "V001"),
                   ("Payment Terms", Json.str "60 Days")],
        services := Json.arr [Json.obj []],
        pricing := [("Diesel Component %", Json.str "33"),
                    ("Base HSD (INR/L)", Json.str "88.85"),
                    ("Gross Price (INR)", Json.str "100.00")],
        text_blocks := [], change_orders := Json.arr [] } = false := by
  constructor
  · exact (gap_detector_boundary _ [Json.obj []] rfl
      (by intro kv h; fin_cases h <;> exact ⟨_, rfl⟩)
      (by intro kv h; fin_cases h <;> exact ⟨_, rfl⟩)).mpr
      (Or.inl ⟨"Order Date", by decide, Or.inl rfl⟩)
  · have h := gap_detector_boundary
      { header := [("Order Number", Json.str "4500000001"),
                   ("Order Date", Json.str "26.09.2024"),
                   ("Validity From", Json.str "01.10.2024"),
                   ("Validity To", Json.str "30.09.2026"),
                   ("Vendor Code", Json.str "V001"),
                   ("Payment Terms", Json.str "60 Days")],
        services := Json.arr [Json.obj []],
        pricing := [("Diesel Component %", Json.str "33"),
                    ("Base HSD (INR/L)", Json.str "88.85"),
                    ("Gross Price (INR)", Json.str "100.00")],
        text_blocks := [], change_orders := Json.arr [] } [Json.obj []] rfl
      (by intro kv hm; fin_cases hm <;> exact ⟨_, rfl⟩)
      (by intro kv hm; fin_cases hm <;> exact ⟨_, rfl⟩)
    cases hx : should_use_llm _
    · rfl
    · exfalso
      rcases h.mp hx with ⟨f, hf, hc⟩ | ⟨f, hf, hc⟩ | hc
      · fin_cases hf <;> simp [dictGet, List.find?] at hc
      · fin_cases hf <;> simp [dictGet, List.find?] at hc
      · cases hc

/-!
## The two-column resolver
-/

theorem takeWhile_append_all (p : α → Bool) (L M : List α)
    (h : ∀ x ∈ L, p x = true) :
    (L ++ M).takeWhile p = L ++ M.takeWhile p := by
  induction L with
  | nil => simp
  | cons a t ih =>
    have ha : p a = true := h a (List.mem_cons_self a t)
    simp only [List.cons_append, List.takeWhile_cons, ha, if_true]
    rw [ih (fun x hx => h x (List.mem_cons_of_mem a hx))]

theorem dropWhile_append_all (p : α → Bool) (L M : List α)
    (h : ∀ x ∈ L, p x = true) :
    (L ++ M).dropWhile p = M.dropWhile p := by
  induction L with
  | nil => simp
  | cons a t ih =>
    have ha : p a = true := h a (List.mem_cons_self a t)
    simp only [List.cons_append, List.dropWhile_cons, ha, if_true]
    exact ih (fun x hx => h x (List.mem_cons_of_mem a hx))

theorem takeWhile_eq_nil_head (p : α → Bool) (M : List α)
    (h : ∀ r, M.head? = some r → p r = false) :
    M.takeWhile p = [] := by
  cases M with
  | nil => rfl
  | cons a t =>
    have := h a rfl
    simp [List.takeWhile_cons, this]

theorem dropWhile_eq_self_head (p : α → Bool) (M : List α)
    (h : ∀ r, M.head? = some r → p r = false) :
    M.dropWhile p = M := by
  cases M with
  | nil => rfl
  | cons a t =>
    have := h a rfl
    simp [List.dropWhile_cons, this]

/-- A known two-column label never begins with the `:-` marker. -/
theorem label_not_dash (s : String) (h : isTwoColLabel s = true) :
    startsDash s = false := by
  simp only [isTwoColLabel, TWO_COL_LABELS, List.any_cons, List.any_nil,
    Bool.or_false, Bool.or_eq_true, beq_iff_eq] at h
  rcases h with h | h | h | h | h <;> (rw [← h]; rfl)

/-- C8: The two-column resolver pairs a run of consecutive known label
lines with the immediately following run of consecutive dash-colon value
lines positionally: `label[i]` with `value[i]`, `zip` truncating to the
overlapping prefix when the runs differ in length; non-empty stripped
values are stored under the labels' canonical names and the scan
continues after the value run.  The claim's concrete scenario is the
witness. -/
theorem two_column_positional_pairing (L V rest : List String)
    (acc : List (String × String)) (hL : L ≠ [])
    (hLab : ∀ l ∈ L, isTwoColLabel l = true)
    (hV : ∀ v ∈ V, startsDash v = true)
    (hrestD : ∀ r, rest.head? = some r → startsDash r = false)
    (hrestL : V = [] → ∀ r, rest.head? = some r → isTwoColLabel r = false) :
    resolveTwoColAux (L ++ V ++ rest) acc =
      resolveTwoColAux rest
        ((L.zip (V.map dashValue)).foldl
          (fun a p => if p.2 == "" then a else dictSet a (twoColLabelName p.1) p.2)
          acc) := by
  obtain ⟨l, L', rfl⟩ : ∃ l L', L = l :: L' := by
    cases L with
    | nil => exact absurd rfl hL
    | cons l L' => exact ⟨l, L', rfl⟩
  have hlab : isTwoColLabel l = true := hLab l (List.mem_cons_self l L')
  have hVlab : ∀ r, (V ++ rest).head? = some r → isTwoColLabel r = false := by
    intro r hr
    cases V with
    | nil => exact hrestL rfl r hr
    | cons v V' =>
      simp only [List.cons_append, List.head?_cons] at hr
      obtain rfl : v = r := by injection hr
      have hd := hV v (List.mem_cons_self v V')
      cases hx : isTwoColLabel v
      · rfl
      · rw [label_not_dash v hx] at hd; cases hd
  have htake : (l :: L' ++ (V ++ rest)).takeWhile isTwoColLabel = l :: L' := by
    rw [takeWhile_append_all _ _ _ hLab, takeWhile_eq_nil_head _ _ hVlab,
      List.append_nil]
  have hdrop : (l :: L' ++ (V ++ rest)).dropWhile isTwoColLabel = V ++ rest := by
    rw [dropWhile_append_all _ _ _ hLab, dropWhile_eq_self_head _ _ hVlab]
  have htakeV : (V ++ rest).takeWhile startsDash = V := by
    rw [takeWhile_append_all _ _ _ hV, takeWhile_eq_nil_head _ _ hrestD,
      List.append_nil]
  have hdropV : (V ++ rest).dropWhile startsDash = rest := by
    rw [dropWhile_append_all _ _ _ hV, dropWhile_eq_self_head _ _ hrestD]
  rw [resolveTwoColAux.eq_def]
  simp only [List.cons_append, List.append_assoc] at htake hdrop htakeV hdropV ⊢
  simp only [hlab, if_true, htake, hdrop, htakeV, hdropV]

theorem two_column_positional_pairing_witness :
    resolve_two_column_headers
      ["Order No.", "Order Date", ":- ABC123", ":- 26.09.2024"] =
      [("Order Number", "ABC123"), ("Order Date", "26.09.2024")] := by
  have h := two_column_positional_pairing ["Order No.", "Order Date"]
    [":- ABC123", ":- 26.09.2024"] [] [] (by decide) (by decide) (by decide)
    (fun r hr => by cases hr) (fun _ r hr => by cases hr)
  rw [resolve_two_column_headers]
  have e : ["Order No.", "Order Date", ":- ABC123", ":- 26.09.2024"] =
      ["Order No.", "Order Date"] ++ [":- ABC123", ":- 26.09.2024"] ++ [] := rfl
  rw [e, h, resolveTwoColAux]
  rfl

/-!
## The services extractor: dedup
-/

theorem dedup_not_mem_seen : ∀ (l : List ServiceLine) (seen : List String)
    (s : ServiceLine), s ∈ dedupBySrvNo l seen → s.srvNo ∉ seen := by
  intro l
  induction l with
  | nil => intro seen s hs; cases hs
  | cons a t ih =>
    intro seen s hs
    rw [dedupBySrvNo] at hs
    by_cases hc : seen.contains a.srvNo = true
    · rw [if_pos hc] at hs
      exact ih seen s hs
    · rw [if_neg hc] at hs
      rcases List.mem_cons.mp hs with rfl | hs
      · intro hmem
        exact hc (List.elem_iff.mpr hmem)
      · have := ih (a.srvNo :: seen) s hs
        intro hmem
        exact this (List.mem_cons_of_mem _ hmem)

theorem dedup_nodup : ∀ (l : List ServiceLine) (seen : List String),
    ((dedupBySrvNo l seen).map (fun s => s.srvNo)).Nodup := by
  intro l
  induction l with
  | nil => intro seen; simp [dedupBySrvNo]
  | cons a t ih =>
    intro seen
    rw [dedupBySrvNo]
    by_cases hc : seen.contains a.srvNo = true
    · rw [if_pos hc]; exact ih seen
    · rw [if_neg hc]
      rw [List.map_cons, List.nodup_cons]
      refine ⟨?_, ih (a.srvNo :: seen)⟩
      intro hmem
      obtain ⟨s, hs, hEq⟩ := List.mem_map.mp hmem
      have := dedup_not_mem_seen t (a.srvNo :: seen) s hs
      exact this (hEq ▸ List.mem_cons_self _ _)

theorem dedup_find : ∀ (l : List ServiceLine) (seen : List String)
    (s : ServiceLine), s ∈ dedupBySrvNo l seen →
    l.find? (fun t => t.srvNo == s.srvNo) = some s := by
  intro l
  induction l with
  | nil => intro seen s hs; cases hs
  | cons a t ih =>
    intro seen s hs
    rw [dedupBySrvNo] at hs
    by_cases hc : seen.contains a.srvNo = true
    · rw [if_pos hc] at hs
      have hnot := dedup_not_mem_seen t seen s hs
      have hne : (a.srvNo == s.srvNo) = false := by
        cases hx : (a.srvNo == s.srvNo)
        · rfl
        · exfalso
          apply hnot
          rw [← (beq_iff_eq.mp hx)]
          exact List.elem_iff.mp hc
      rw [List.find?_cons, hne]
      exact ih seen s hs
    · rw [if_neg hc] at hs
      rcases List.mem_cons.mp hs with rfl | hs
      · rw [List.find?_cons, beq_self_eq_true]
      · have hnot := dedup_not_mem_seen t (a.srvNo :: seen) s hs
        have hne : (a.srvNo == s.srvNo) = false := by
          cases hx : (a.srvNo == s.srvNo)
          · rfl
          · exfalso
            apply hnot
            rw [← (beq_iff_eq.mp hx)]
            exact List.mem_cons_self _ _
        rw [List.find?_cons, hne]
        exact ih (a.srvNo :: seen) s hs

theorem dedup_complete : ∀ (l : List ServiceLine) (seen : List String)
    (t : ServiceLine), t ∈ l →
    t.srvNo ∈ seen ∨ ∃ s ∈ dedupBySrvNo l seen, s.srvNo = t.srvNo := by
  intro l
  induction l with
  | nil => intro seen t ht; cases ht
  | cons a r ih =>
    intro seen t ht
    rw [dedupBySrvNo]
    by_cases hc : seen.contains a.srvNo = true
    · rw [if_pos hc]
      rcases List.mem_cons.mp ht with rfl | ht
      · exact Or.inl (List.elem_iff.mp hc)
      · exact ih seen t ht
    · rw [if_neg hc]
      rcases List.mem_cons.mp ht with hta | ht
      · exact Or.inr ⟨a, List.mem_cons_self _ _, by rw [hta]⟩
      · rcases ih (a.srvNo :: seen) t ht with hseen | ⟨s, hs, hEq⟩
        · rcases List.mem_cons.mp hseen with hEq | hseen
          · exact Or.inr ⟨a, List.mem_cons_self _ _, hEq.symm⟩
          · exact Or.inl hseen
        · exact Or.inr ⟨s, List.mem_cons_of_mem _ hs, hEq⟩

/-- C4: The extracted service list has pairwise distinct service
numbers; every kept entry is the first entry, in document order, of the
pre-dedup per-header list with its service number (`find?` returns the
first match, and `svcWindows` preserves the order of the header
matches); and every service number of the pre-dedup list survives. -/
theorem services_dedup_first_wins (briefClean : String → String)
    (noiseMatch : String → Bool) (headers : List ItemHeaderMatch)
    (rates : List RateMatch) (longTxts : List LongTextMatch) (textLen : Nat) :
    ((extract_services briefClean noiseMatch headers rates longTxts textLen).map
        (fun s => s.srvNo)).Nodup ∧
    (∀ s ∈ extract_services briefClean noiseMatch headers rates longTxts textLen,
      ((svcWindows headers textLen).map
          (mkServiceLine briefClean noiseMatch longTxts rates)).find?
        (fun t => t.srvNo == s.srvNo) = some s) ∧
    (∀ t ∈ (svcWindows headers textLen).map
        (mkServiceLine briefClean noiseMatch longTxts rates),
      ∃ s ∈ extract_services briefClean noiseMatch headers rates longTxts textLen,
        s.srvNo = t.srvNo) := by
  cases headers with
  | nil =>
    refine ⟨by simp [extract_services], ?_, ?_⟩
    · intro s hs; simp [extract_services] at hs
    · intro t ht; simp [svcWindows] at ht
  | cons h0 hs0 =>
    have he : extract_services briefClean noiseMatch (h0 :: hs0) rates longTxts textLen =
        dedupBySrvNo
          ((svcWindows (h0 :: hs0) textLen).map
            (mkServiceLine briefClean noiseMatch longTxts rates)) [] := rfl
    rw [he]
    refine ⟨dedup_nodup _ [], ?_, ?_⟩
    · intro s hs
      exact dedup_find _ [] s hs
    · intro t ht
      rcases dedup_complete _ [] t ht with hseen | hok
      · cases hseen
      · exact hok

/-!
## Non-empty sections (rule extraction and merge)
-/

/-- C7 counterexample: after the LLM merge a mapping section can keep a
key with an empty string value.  With an empty rule header and an LLM
header `{"Order Number": ""}`, the merged header maps `"Order Number"`
to `""` — the merge loop starts from the LLM mapping and never drops its
empty values, so the claimed invariant fails after the merge step. -/
theorem merged_header_keeps_empty_llm_value :
    dictGet (enhance_with_llm (fun s => s)
      (fun _ => some (Json.obj [("header", Json.obj [("Order Number", Json.str "")])]))
      (some "response")
      { header := [], services := Json.arr [], pricing := [],
        text_blocks := [], change_orders := Json.arr [] }).header "Order Number" =
      some (Json.str "") := rfl

theorem dictGet_filter_keys_ne (d : List (String × α)) (p : String × α → Bool)
    (k : String) (h : ∀ kv ∈ d, kv.1 ≠ k) :
    dictGet (d.filter p) k = none := by
  rw [dictGet, Option.map_eq_none']
  rw [List.find?_eq_none]
  intro kv hkv
  have := h kv (List.mem_of_mem_filter hkv)
  simp [this]

/-- C7 amended: after rule extraction every mapping section (header,
pricing, text blocks) contains only keys with non-empty string values —
the extractors end in a `{k: v for k, v in ... if v}` filter — and the
merge step preserves non-emptiness for every key the rule section bound
to a non-empty value; but keys contributed only by the LLM output may
carry empty values (see the counterexample). -/
theorem sections_nonempty_after_extraction (two_col kvps : List (String × String))
    (ho : HeaderOracle) (po : PricingOracle) (to_ : TextBlocksOracle)
    (rule : List (String × Json)) (llm : Json) (k : String) (v : String)
    (hnd : NodupKeys rule) (hv : v ≠ "") :
    (∀ kv ∈ extract_header two_col kvps ho, kv.2 ≠ "") ∧
    (∀ kv ∈ extract_pricing po, kv.2 ≠ "") ∧
    (∀ kv ∈ extract_text_blocks to_, kv.2 ≠ "") ∧
    (dictGet rule k = some (Json.str v) →
      dictGet (mergeSection rule llm) k = some (Json.str v)) := by
  refine ⟨?_, ?_, ?_, ?_⟩
  · intro kv hkv
    rw [extract_header] at hkv
    have := List.of_mem_filter hkv
    simpa using this
  · intro kv hkv
    rw [extract_pricing] at hkv
    have := List.of_mem_filter hkv
    simpa using this
  · intro kv hkv
    rw [extract_text_blocks] at hkv
    have := List.of_mem_filter hkv
    simpa using this
  · intro hget
    exact dictGet_mergeSection rule llm k v hnd hget hv

theorem sections_nonempty_after_extraction_witness :
    (∀ kv ∈ extract_header [] []
        { orderNoPat := "", orderDatePat := "", releaseDatePat := "",
          validity := none, vendorCodePat := "", vendorNamePat := "",
          paymentPat := "", gst := none, emailPat := "",
          ceilInr := "", ceilPlain := "" }, kv.2 ≠ "") ∧
    dictGet (mergeSection [("Order Number", Json.str "ABC123")]
      (Json.obj [("Order Number", Json.str "")])) "Order Number" =
      some (Json.str "ABC123") := by
  have h := sections_nonempty_after_extraction [] []
    { orderNoPat := "", orderDatePat := "", releaseDatePat := "",
      validity := none, vendorCodePat := "", vendorNamePat := "",
      paymentPat := "", gst := none, emailPat := "",
      ceilInr := "", ceilPlain := "" }
    { diesel := "", hsd := none, hsdSource := "", gross := "", items := [],
      ceilInr := "", ceilPlain := "", total := "" }
    { scope := none, safetySlice := none, safetySents := [], exitOne := none,
      exitTwo := none, exitThree := "", payment := none }
    [("Order Number", Json.str "ABC123")]
    (Json.obj [("Order Number", Json.str "")])
    "Order Number" "ABC123" (by decide) (by decide)
  exact ⟨h.1, h.2.2.2 rfl⟩

/-!
## The exit-clause sentinel
-/

/-- C9: The text-blocks extractor always produces an Exit Clause entry:
when the primary and fallback exit-clause searches both fail, the
last-resort pattern is tried, and when that fails too the literal
sentinel `"Not found"` is emitted instead of dropping the key.  The two
hypotheses record that a successful `re.search` of the primary or
fallback exit pattern yields a group whose cleaned, capped text is
non-empty (their matches contain the literal anchor words, which the
cleanup cannot erase). -/
theorem exit_clause_always_present (o : TextBlocksOracle)
    (h1 : ∀ g, o.exitOne = some g → strTake (cleanBlock g) 2000 ≠ "")
    (h2 : ∀ g, o.exitTwo = some g → strTake (cleanBlock g) 2000 ≠ "") :
    (∃ w, dictGet (extract_text_blocks o) "Exit Clause" = some w ∧ w ≠ "") ∧
    (o.exitOne = none → o.exitTwo = none → o.exitThree = "" →
      dictGet (extract_text_blocks o) "Exit Clause" = some "Not found") := by
  have hev : ∀ ev : String, ev ≠ "" →
      (match o.exitOne, o.exitTwo with
        | some g, _ => strTake (cleanBlock g) 2000
        | none, some g => strTake (cleanBlock g) 2000
        | none, none => orS o.exitThree "Not found") = ev →
      dictGet (extract_text_blocks o) "Exit Clause" = some ev := by
    intro ev hne hmatch
    rw [extract_text_blocks]
    rw [List.filter_append, List.filter_append, List.filter_append]
    rw [dictGet_append, dictGet_append, dictGet_append]
    have hA : dictGet ((match o.scope with
        | some g => [("Scope of Work", strTake (cleanBlock g) 2000)]
        | none => []).filter (fun kv => !(kv.2 == ""))) "Exit Clause" = none := by
      apply dictGet_filter_keys_ne
      intro kv hkv
      cases hs : o.scope <;> rw [hs] at hkv <;> simp at hkv
      · rw [hkv]; simp
    have hB : dictGet ((match o.safetySlice with
        | some raw =>
          let cs := raw.toList
          let keep :=
            match pyRfindChar (cs.take 3000) '|' with
            | some cut => if cut > 0 then cs.take cut else cs.take 3000
            | none => cs.take 3000
          [("Safety Norms", cleanBlock (String.mk keep))]
        | none =>
          if o.safetySents.isEmpty then []
          else [("Safety Norms",
                 pyJoin " " ((o.safetySents.take 10).map pyStripStr))]).filter
        (fun kv => !(kv.2 == ""))) "Exit Clause" = none := by
      apply dictGet_filter_keys_ne
      intro kv hkv
      cases hs : o.safetySlice <;> rw [hs] at hkv
      · by_cases hse : o.safetySents.isEmpty = true <;> simp [hse] at hkv
        · rw [hkv]; simp
      · simp at hkv
        rw [hkv]; simp
    rw [hA, hB]
    rw [hmatch]
    have hf : ([("Exit Clause", ev)].filter (fun kv => !(kv.2 == ""))) =
        [("Exit Clause", ev)] := by
      have hne' : (ev == "") = false := by simp [hne]
      simp [List.filter, hne']
    rw [hf, dictGet_cons]
    simp
  constructor
  · cases ho1 : o.exitOne with
    | some g =>
      refine ⟨strTake (cleanBlock g) 2000, ?_, h1 g ho1⟩
      exact hev _ (h1 g ho1) (by rw [ho1])
    | none =>
      cases ho2 : o.exitTwo with
      | some g =>
        refine ⟨strTake (cleanBlock g) 2000, ?_, h2 g ho2⟩
        exact hev _ (h2 g ho2) (by rw [ho1, ho2])
      | none =>
        by_cases h3 : o.exitThree = ""
        · refine ⟨"Not found", ?_, by decide⟩
          exact hev _ (by decide) (by rw [ho1, ho2]; simp [orS, h3])
        · refine ⟨o.exitThree, ?_, h3⟩
          exact hev _ h3 (by rw [ho1, ho2]; simp [orS, h3])
  · intro ho1 ho2 h3
    exact hev _ (by decide) (by rw [ho1, ho2]; simp [orS, h3])

theorem exit_clause_always_present_witness :
    dictGet (extract_text_blocks
      { scope := none, safetySlice := none, safetySents := [], exitOne := none,
        exitTwo := none, exitThree := "", payment := none }) "Exit Clause" =
      some "Not found" :=
  (exit_clause_always_present
    { scope := none, safetySlice := none, safetySents := [], exitOne := none,
      exitTwo := none, exitThree := "", payment := none }
    (fun g hg => by cases hg) (fun g hg => by cases hg)).2 rfl rfl rfl

/-!
## The cleaner: adjacency-predicate toolkit
-/

theorem pairOkB_tail (P : Char → Char → Bool) (a : Char) (l : List Char)
    (h : pairOkB P (a :: l) = true) : pairOkB P l = true := by
  cases l with
  | nil => rfl
  | cons b t =>
    rw [pairOkB, Bool.and_eq_true] at h
    exact h.2

theorem pairOkB_cons_iff (P : Char → Char → Bool) (a : Char) (l : List Char) :
    pairOkB P (a :: l) = true ↔
      ((∀ b, l.head? = some b → P a b = true) ∧ pairOkB P l = true) := by
  cases l with
  | nil => simp [pairOkB]
  | cons b t =>
    rw [pairOkB, Bool.and_eq_true]
    constructor
    · rintro ⟨h1, h2⟩
      refine ⟨?_, h2⟩
      intro b' hb'
      obtain rfl : b = b' := by injection hb'
      exact h1
    · rintro ⟨h1, h2⟩
      exact ⟨h1 b rfl, h2⟩

theorem pairOkB_append_iff (P : Char → Char → Bool) (l₁ l₂ : List Char) :
    pairOkB P (l₁ ++ l₂) = true ↔
      (pairOkB P l₁ = true ∧ pairOkB P l₂ = true ∧
       (∀ a b, l₁.getLast? = some a → l₂.head? = some b → P a b = true)) := by
  induction l₁ with
  | nil => simp [pairOkB]
  | cons a t ih =>
    cases t with
    | nil =>
      cases l₂ with
      | nil => simp [pairOkB]
      | cons b u =>
        rw [List.singleton_append, pairOkB, Bool.and_eq_true]
        constructor
        · rintro ⟨h1, h2⟩
          refine ⟨rfl, h2, ?_⟩
          intro x y hx hy
          obtain rfl : a = x := by injection hx
          obtain rfl : b = y := by injection hy
          exact h1
        · rintro ⟨-, h2, h3⟩
          exact ⟨h3 a b rfl rfl, h2⟩
    | cons c t' =>
      rw [List.cons_append, List.cons_append]
      rw [show pairOkB P (a :: c :: (t' ++ l₂)) =
            (P a c && pairOkB P (c :: (t' ++ l₂))) from rfl]
      rw [show pairOkB P (a :: c :: t') = (P a c && pairOkB P (c :: t')) from rfl]
      rw [Bool.and_eq_true, Bool.and_eq_true]
      rw [← List.cons_append, ih]
      have hgl : (a :: c :: t').getLast? = (c :: t').getLast? :=
        List.getLast?_cons_cons
      constructor
      · rintro ⟨h0, h1, h2, h3⟩
        refine ⟨⟨h0, h1⟩, h2, ?_⟩
        intro x y hx hy
        rw [hgl] at hx
        exact h3 x y hx hy
      · rintro ⟨⟨h0, h1⟩, h2, h3⟩
        refine ⟨h0, h1, h2, ?_⟩
        intro x y hx hy
        exact h3 x y (by rw [hgl]; exact hx) hy

theorem pairOkB_suffix (P : Char → Char → Bool) (l₁ l₂ : List Char)
    (h : l₁ <:+ l₂) (hp : pairOkB P l₂ = true) : pairOkB P l₁ = true := by
  obtain ⟨t, rfl⟩ := h
  exact ((pairOkB_append_iff P t l₁).mp hp).2.1

theorem pairOkB_front (P : Char → Char → Bool) (l₁ l₂ : List Char)
    (h : l₁ <+: l₂) (hp : pairOkB P l₂ = true) : pairOkB P l₁ = true := by
  obtain ⟨t, rfl⟩ := h
  exact ((pairOkB_append_iff P l₁ t).mp hp).1

theorem pairOkB_chunk (P : Char → Char → Bool) (l₁ l₂ : List Char)
    (h : l₁ <:+: l₂) (hp : pairOkB P l₂ = true) : pairOkB P l₁ = true := by
  obtain ⟨s, t, rfl⟩ := h
  exact pairOkB_front P l₁ (l₁ ++ t)
    ⟨t, rfl⟩ (pairOkB_suffix P (l₁ ++ t) (s ++ l₁ ++ t) ⟨s, by simp⟩ hp)

theorem spaceOnly_subset (l₁ l₂ : List Char) (h : ∀ c ∈ l₁, c ∈ l₂)
    (hp : spaceOnly l₂ = true) : spaceOnly l₁ = true := by
  rw [spaceOnly, List.all_eq_true] at hp ⊢
  intro c hc
  exact hp c (h c hc)

theorem dropWhile_eq_self_of_head (p : Char → Bool) (l : List Char)
    (h : ∀ c, l.head? = some c → p c = false) : l.dropWhile p = l := by
  cases l with
  | nil => rfl
  | cons a t =>
    rw [List.dropWhile_cons, h a rfl]
    simp

/-- `stripBoth p l` is an infix of `l`. -/
theorem stripBoth_chunk (p : Char → Bool) (l : List Char) : stripBoth p l <:+: l := by
  rw [stripBoth]
  have h1 : l.dropWhile p <:+ l := List.dropWhile_suffix p
  have h2 : ((l.dropWhile p).reverse.dropWhile p).reverse <+: l.dropWhile p := by
    have h3 : (l.dropWhile p).reverse.dropWhile p <:+
        (l.dropWhile p).reverse := List.dropWhile_suffix p
    obtain ⟨t, ht⟩ := h3
    refine ⟨t.reverse, ?_⟩
    have := congrArg List.reverse ht
    simpa using this
  exact h2.isInfix.trans h1.isInfix

/-- Strip decomposition: the strip result sits between a dropped prefix
and a dropped suffix whose characters all satisfy the set predicate. -/
theorem stripBoth_decomp (p : Char → Bool) (l : List Char) :
    ∃ u t, l = u ++ stripBoth p l ++ t ∧
      (∀ c ∈ u, p c = true) ∧ (∀ c ∈ t, p c = true) := by
  refine ⟨l.takeWhile p, ((l.dropWhile p).reverse.takeWhile p).reverse, ?_, ?_, ?_⟩
  · have h2 : l.dropWhile p = stripBoth p l ++
        ((l.dropWhile p).reverse.takeWhile p).reverse := by
      rw [stripBoth]
      conv_lhs => rw [← List.reverse_reverse (l.dropWhile p)]
      conv_lhs =>
        rw [← List.takeWhile_append_dropWhile (p := p)
          (l := (l.dropWhile p).reverse)]
      rw [List.reverse_append]
    conv_lhs => rw [← List.takeWhile_append_dropWhile (p := p) (l := l), h2]
    rw [List.append_assoc]
  · intro c hc
    exact List.mem_takeWhile_imp hc
  · intro c hc
    rw [List.mem_reverse] at hc
    exact List.mem_takeWhile_imp hc

theorem head?_stripBoth_not (p : Char → Bool) (l : List Char) (c : Char)
    (h : (stripBoth p l).head? = some c) : p c = false := by
  rw [stripBoth] at h
  rw [List.head?_reverse] at h
  have he : (l.dropWhile p).reverse.dropWhile p ≠ [] := by
    intro hx
    rw [hx] at h
    cases h
  obtain ⟨t, ht⟩ := List.dropWhile_suffix (l := (l.dropWhile p).reverse) (p := p)
  have hgl : ((l.dropWhile p).reverse.dropWhile p).getLast? =
      (l.dropWhile p).reverse.getLast? := by
    conv_rhs => rw [← ht]
    exact (List.getLast?_append_of_ne_nil t he).symm
  rw [hgl, List.getLast?_reverse] at h
  have := List.head?_dropWhile_not p l
  rw [h] at this
  simpa using this

theorem last?_stripBoth_not (p : Char → Bool) (l : List Char) (c : Char)
    (h : (stripBoth p l).getLast? = some c) : p c = false := by
  rw [stripBoth, List.getLast?_reverse] at h
  have := List.head?_dropWhile_not p (l.dropWhile p).reverse
  rw [h] at this
  simpa using this

/-- `stripBoth` is idempotent. -/
theorem stripBoth_idem (p : Char → Bool) (l : List Char) :
    stripBoth p (stripBoth p l) = stripBoth p l := by
  conv_lhs => rw [stripBoth]
  have hA : (stripBoth p l).dropWhile p = stripBoth p l := by
    apply dropWhile_eq_self_of_head
    intro c hc
    exact head?_stripBoth_not p l c hc
  have hB : (stripBoth p l).reverse.dropWhile p = (stripBoth p l).reverse := by
    apply dropWhile_eq_self_of_head
    intro c hc
    rw [List.head?_reverse] at hc
    exact last?_stripBoth_not p l c hc
  rw [hA, hB, List.reverse_reverse]

/-- A string whose ends avoid the strip set is unchanged by `stripBoth`. -/
theorem stripBoth_id (p : Char → Bool) (l : List Char)
    (hh : ∀ c, l.head? = some c → p c = false)
    (hl : ∀ c, l.getLast? = some c → p c = false) :
    stripBoth p l = l := by
  rw [stripBoth]
  rw [dropWhile_eq_self_of_head p l hh]
  rw [dropWhile_eq_self_of_head p l.reverse (by
    intro c hc
    rw [List.head?_reverse] at hc
    exact hl c hc)]
  exact List.reverse_reverse l

/-!
## Stage identity lemmas

Each substitution stage of `clean_text` acts as the identity on strings
that carry no occurrence of its pattern; these feed the idempotence
analysis of the second cleaning pass.
-/

theorem spaceOnly_cons (c : Char) (l : List Char)
    (h : spaceOnly (c :: l) = true) :
    (pyIsSpace c = true → c = ' ') ∧ spaceOnly l = true := by
  rw [spaceOnly, List.all_cons, Bool.and_eq_true] at h
  refine ⟨?_, h.2⟩
  intro hws
  rcases Bool.or_eq_true _ _ |>.mp h.1 with hx | hx
  · rw [hws] at hx; cases hx
  · exact beq_iff_eq.mp hx

theorem noWsPair_cons_head (a b : Char) (l : List Char)
    (h : noWsPair (a :: b :: l) = true) :
    ¬(pyIsSpace a = true ∧ pyIsSpace b = true) := by
  rw [noWsPair, pairOkB, Bool.and_eq_true] at h
  rintro ⟨h1, h2⟩
  have := h.1
  rw [h1, h2] at this
  cases this

/-- A whitespace-collapsed string of plain spaces is a fixed point of
whitespace collapsing. -/
theorem collapseWs_id : ∀ l : List Char, noWsPair l = true →
    spaceOnly l = true → collapseWs l = l := by
  intro l
  induction l with
  | nil => intro _ _; rfl
  | cons c cs ih =>
    intro h1 h2
    obtain ⟨hc, h2t⟩ := spaceOnly_cons c cs h2
    cases cs with
    | nil =>
      rw [collapseWs]
      by_cases hws : pyIsSpace c = true
      · rw [if_pos hws, hc hws]
      · rw [if_neg hws]
    | cons d cs' =>
      rw [collapseWs]
      have hpair := noWsPair_cons_head c d cs' h1
      have hcond : (pyIsSpace c && pyIsSpace d) = false := by
        cases hx : pyIsSpace c <;> cases hy : pyIsSpace d <;> simp_all
      rw [hcond]
      simp only [Bool.false_eq_true, if_false]
      have hrec := ih (pairOkB_tail _ _ _ h1) h2t
      rw [hrec]
      by_cases hws : pyIsSpace c = true
      · rw [if_pos hws, hc hws]
      · rw [if_neg hws]

theorem subHashAux_id : ∀ l : List Char, '#' ∉ l → subHashAux false l = l := by
  intro l
  induction l with
  | nil => intro _; rfl
  | cons c cs ih =>
    intro h
    have hc : (c == '#') = false := by
      cases hx : c == '#'
      · rfl
      · exact absurd (by rw [beq_iff_eq.mp hx]; exact List.mem_cons_self _ _) h
    have ht : '#' ∉ cs := fun hx => h (List.mem_cons_of_mem _ hx)
    cases cs with
    | nil => rfl
    | cons d cs' =>
      rw [subHashAux]
      have hcond : (c == '#' && d == '#') = false := by rw [hc]; rfl
      rw [hcond]
      simp only [Bool.false_eq_true, if_false]
      rw [ih ht]

theorem subHashRuns_id (l : List Char) (h : '#' ∉ l) : subHashRuns l = l :=
  subHashAux_id l h

theorem subLoneHash_id : ∀ l : List Char, '#' ∉ l → subLoneHash l = l := by
  intro l
  induction l with
  | nil => intro _; rfl
  | cons a cs ih =>
    intro h
    have ht : '#' ∉ cs := fun hx => h (List.mem_cons_of_mem _ hx)
    match cs with
    | [] => rfl
    | [b] => rfl
    | b :: c :: cs' =>
      rw [subLoneHash]
      have hb : (b == '#') = false := by
        cases hx : b == '#'
        · rfl
        · exact absurd (by
            rw [beq_iff_eq.mp hx]
            exact List.mem_cons_of_mem _ (List.mem_cons_self _ _)) h
      have hcond : (b == '#' && pyIsSpace a && pyIsSpace c) = false := by
        rw [hb]; rfl
      rw [hcond]
      simp only [Bool.false_eq_true, if_false]
      rw [ih ht]

/-- The `\s*:-\s*` lookahead succeeds only on strings containing the
`:-` adjacency. -/
theorem wsThenColonDash_not (l : List Char) (h : noCD l = true) :
    wsThenColonDash l = false := by
  induction l with
  | nil => rfl
  | cons a cs ih =>
    cases cs with
    | nil => rfl
    | cons b r =>
      rw [wsThenColonDash]
      have h1 : ((a == ':') && (b == '-')) = false := by
        rw [noCD, pairOkB, Bool.and_eq_true] at h
        have := h.1
        cases hx : ((a == ':') && (b == '-'))
        · rfl
        · rw [hx] at this; cases this
      rw [h1, Bool.false_or]
      have := ih (pairOkB_tail _ _ _ h)
      rw [this, Bool.and_false]

theorem noCD_head_pair (a b : Char) (l : List Char) (h : noCD (a :: b :: l) = true) :
    ((a == ':') && (b == '-')) = false := by
  rw [noCD, pairOkB, Bool.and_eq_true] at h
  have := h.1
  cases hx : ((a == ':') && (b == '-'))
  · rfl
  · rw [hx] at this; cases this

/-- A string without the `:-` adjacency is a fixed point of the
dash-colon substitution. -/
theorem subColonAux_normal_id : ∀ l : List Char, noCD l = true →
    subColonAux .normal l = l := by
  intro l
  induction l with
  | nil => intro _; rfl
  | cons a cs ih =>
    intro h
    cases cs with
    | nil => rfl
    | cons b r =>
      rw [subColonAux]
      rw [noCD_head_pair a b r h]
      simp only [Bool.false_eq_true, if_false]
      have hlook : wsThenColonDash (b :: r) = false :=
        wsThenColonDash_not (b :: r) (pairOkB_tail _ _ _ h)
      rw [hlook, Bool.and_false]
      simp only [Bool.false_eq_true, if_false]
      rw [ih (pairOkB_tail _ _ _ h)]

/-!
## Character-subset lemmas: no stage introduces a hash, and whitespace
characters in any stage's output come from the input or are plain spaces
-/

theorem mem_collapseWs : ∀ (l : List Char) (c : Char), c ∈ collapseWs l →
    c ∈ l ∨ c = ' ' := by
  intro l
  induction l with
  | nil => intro c hc; cases hc
  | cons a cs ih =>
    intro c hc
    cases cs with
    | nil =>
      rw [collapseWs] at hc
      by_cases hws : pyIsSpace a = true
      · rw [if_pos hws] at hc
        rcases List.mem_singleton.mp hc with rfl
        exact Or.inr rfl
      · rw [if_neg hws] at hc
        exact Or.inl hc
    | cons d cs' =>
      rw [collapseWs] at hc
      by_cases hcond : (pyIsSpace a && pyIsSpace d) = true
      · rw [if_pos hcond] at hc
        rcases ih c hc with h | h
        · exact Or.inl (List.mem_cons_of_mem _ h)
        · exact Or.inr h
      · rw [if_neg hcond] at hc
        rcases List.mem_cons.mp hc with rfl | h
        · by_cases hws : pyIsSpace a = true
          · rw [if_pos hws]; exact Or.inr rfl
          · rw [if_neg hws]; exact Or.inl (List.mem_cons_self _ _)
        · rcases ih c h with h2 | h2
          · exact Or.inl (List.mem_cons_of_mem _ h2)
          · exact Or.inr h2

theorem mem_matchLS_rest : ∀ (p l r : List Char), matchLS p l = some r →
    ∀ c ∈ r, c ∈ l := by
  intro p
  induction p with
  | nil => intro l r h; cases l <;> simp [matchLS] at h
  | cons a ps ih =>
    intro l r h c hc
    cases l with
    | nil => cases ps <;> simp [matchLS] at h
    | cons d ds =>
      cases ps with
      | nil =>
        rw [matchLS] at h
        split at h
        · obtain rfl : ds = r := by injection h
          exact List.mem_cons_of_mem _ hc
        · cases h
      | cons b ps' =>
        have h' : (if d.toLower == a then
              if (ds.takeWhile pyIsSpace).isEmpty then none
              else matchLS (b :: ps') (ds.dropWhile pyIsSpace)
            else none) = some r := h
        split at h'
        · split at h'
          · cases h'
          · have hmem := ih _ _ h' c hc
            exact List.mem_cons_of_mem _
              ((List.dropWhile_sublist (p := pyIsSpace) (l := ds)).subset hmem)
        · cases h'

theorem mem_subLSAux (p rep : List Char) : ∀ (skip : Nat) (prevW : Bool)
    (l : List Char) (c : Char), c ∈ subLSAux p rep skip prevW l →
    c ∈ l ∨ c ∈ rep := by
  intro skip prevW l
  induction l generalizing skip prevW with
  | nil => intro c hc; cases skip <;> cases hc
  | cons a cs ih =>
    intro c hc
    cases skip with
    | succ k =>
      rw [subLSAux] at hc
      rcases ih k true c hc with h | h
      · exact Or.inl (List.mem_cons_of_mem _ h)
      · exact Or.inr h
    | zero =>
      rw [subLSAux] at hc
      split at hc
      · split at hc
        · rcases List.mem_append.mp hc with h | h
          · exact Or.inr h
          · rcases ih _ true c h with h2 | h2
            · exact Or.inl (List.mem_cons_of_mem _ h2)
            · exact Or.inr h2
        · rcases List.mem_cons.mp hc with rfl | h
          · exact Or.inl (List.mem_cons_self _ _)
          · rcases ih 0 (isWordChar a) c h with h2 | h2
            · exact Or.inl (List.mem_cons_of_mem _ h2)
            · exact Or.inr h2
      · rcases List.mem_cons.mp hc with rfl | h
        · exact Or.inl (List.mem_cons_self _ _)
        · rcases ih 0 (isWordChar a) c h with h2 | h2
          · exact Or.inl (List.mem_cons_of_mem _ h2)
          · exact Or.inr h2

theorem mem_fix_letter_spacing (l : List Char) (c : Char)
    (hc : c ∈ fix_letter_spacing l) :
    c ∈ l ∨ ∃ pr ∈ LETTER_SPACED_WORDS, c ∈ pr.2 := by
  rw [fix_letter_spacing] at hc
  have key : ∀ (tbl : List (List Char × List Char)) (l : List Char),
      c ∈ tbl.foldl (fun acc pr => subLSAux pr.1 pr.2 0 false acc) l →
      c ∈ l ∨ ∃ pr ∈ tbl, c ∈ pr.2 := by
    intro tbl
    induction tbl with
    | nil => intro l h; exact Or.inl h
    | cons pr t ih =>
      intro l h
      rw [List.foldl_cons] at h
      rcases ih _ h with h2 | ⟨q, hq, hcq⟩
      · rcases mem_subLSAux pr.1 pr.2 0 false l c h2 with h3 | h3
        · exact Or.inl h3
        · exact Or.inr ⟨pr, List.mem_cons_self _ _, h3⟩
      · exact Or.inr ⟨q, List.mem_cons_of_mem _ hq, hcq⟩
  exact key LETTER_SPACED_WORDS l hc

theorem mem_subColonAux (c : Char) : ∀ (mode : SubMode) (l : List Char),
    c ∈ subColonAux mode l → c ∈ l ∨ c = ':' ∨ c = ' ' := by
  intro mode l
  induction mode, l using subColonAux.induct with
  | case1 m => intro hc; cases m <;> simp [subColonAux] at hc
  | case2 d => intro hc; simp [subColonAux] at hc
  | case3 d hws => intro hc; simp [subColonAux, hws] at hc
  | case4 d hws =>
    intro hc
    rw [subColonAux, if_neg hws] at hc
    exact Or.inl hc
  | case5 d =>
    intro hc
    rw [subColonAux] at hc
    exact Or.inl hc
  | case6 a b r hab ih =>
    intro hc
    rw [subColonAux, if_pos hab] at hc
    rcases List.mem_cons.mp hc with rfl | hc2
    · exact Or.inr (Or.inl rfl)
    · rcases List.mem_cons.mp hc2 with rfl | hc3
      · exact Or.inr (Or.inr rfl)
      · rcases ih hc3 with h | h
        · exact Or.inl (List.mem_cons_of_mem _ (List.mem_cons_of_mem _ h))
        · exact Or.inr h
  | case7 a b r hab ih =>
    intro hc
    rw [subColonAux, if_neg hab] at hc
    rcases ih hc with h | h
    · exact Or.inl (List.mem_cons_of_mem _ h)
    · exact Or.inr h
  | case8 a b r hws ih =>
    intro hc
    rw [subColonAux, if_pos hws] at hc
    rcases ih hc with h | h
    · exact Or.inl (List.mem_cons_of_mem _ h)
    · exact Or.inr h
  | case9 a b r hws hab ih =>
    intro hc
    rw [subColonAux, if_neg hws, if_pos hab] at hc
    rcases List.mem_cons.mp hc with rfl | hc2
    · exact Or.inr (Or.inl rfl)
    · rcases List.mem_cons.mp hc2 with rfl | hc3
      · exact Or.inr (Or.inr rfl)
      · rcases ih hc3 with h | h
        · exact Or.inl (List.mem_cons_of_mem _ (List.mem_cons_of_mem _ h))
        · exact Or.inr h
  | case10 a b r hws hab ih =>
    intro hc
    rw [subColonAux, if_neg hws, if_neg hab] at hc
    rcases List.mem_cons.mp hc with rfl | hc2
    · exact Or.inl (List.mem_cons_self _ _)
    · rcases ih hc2 with h | h
      · exact Or.inl (List.mem_cons_of_mem _ h)
      · exact Or.inr h
  | case11 a b r hab ih =>
    intro hc
    rw [subColonAux, if_pos hab] at hc
    rcases List.mem_cons.mp hc with rfl | hc2
    · exact Or.inr (Or.inl rfl)
    · rcases List.mem_cons.mp hc2 with rfl | hc3
      · exact Or.inr (Or.inr rfl)
      · rcases ih hc3 with h | h
        · exact Or.inl (List.mem_cons_of_mem _ (List.mem_cons_of_mem _ h))
        · exact Or.inr h
  | case12 a b r hab hg ih =>
    intro hc
    rw [subColonAux, if_neg hab, if_pos hg] at hc
    rcases ih hc with h | h
    · exact Or.inl (List.mem_cons_of_mem _ h)
    · exact Or.inr h
  | case13 a b r hab hg ih =>
    intro hc
    rw [subColonAux, if_neg hab, if_neg hg] at hc
    rcases List.mem_cons.mp hc with rfl | hc2
    · exact Or.inl (List.mem_cons_self _ _)
    · rcases ih hc2 with h | h
      · exact Or.inl (List.mem_cons_of_mem _ h)
      · exact Or.inr h

theorem spaceOnly_mem (l : List Char) (c : Char) (h : spaceOnly l = true)
    (hc : c ∈ l) (hw : pyIsSpace c = true) : c = ' ' := by
  rw [spaceOnly, List.all_eq_true] at h
  have h2 := h c hc
  rw [hw] at h2
  simpa using h2

theorem mem_of_head_eq (l : List Char) (c : Char) (h : l.head? = some c) : c ∈ l := by
  cases l with
  | nil => cases h
  | cons a t =>
    rw [List.head?_cons] at h
    obtain rfl : a = c := by injection h
    exact List.mem_cons_self _ _

theorem mem_of_getLast_eq (l : List Char) (c : Char) (h : l.getLast? = some c) : c ∈ l := by
  rw [← List.head?_reverse] at h
  exact List.mem_reverse.mp (mem_of_head_eq _ _ h)

theorem spaceOnly_collapseWs : ∀ l : List Char, spaceOnly (collapseWs l) = true := by
  intro l
  induction l with
  | nil => rfl
  | cons c cs ih =>
    cases cs with
    | nil =>
      rw [collapseWs]
      by_cases h : pyIsSpace c = true
      · rw [if_pos h]; decide
      · rw [if_neg h]
        rw [Bool.not_eq_true] at h
        simp [spaceOnly, h]
    | cons d cs2 =>
      rw [collapseWs]
      by_cases h : (pyIsSpace c && pyIsSpace d) = true
      · rw [if_pos h]; exact ih
      · rw [if_neg h]
        rw [spaceOnly, List.all_cons]
        rw [spaceOnly] at ih
        rw [Bool.and_eq_true]
        refine ⟨?_, ih⟩
        by_cases hc : pyIsSpace c = true
        · rw [if_pos hc]; decide
        · rw [if_neg hc]
          rw [Bool.not_eq_true] at hc
          show (!pyIsSpace c || (c == ' ')) = true
          rw [hc]
          rfl

theorem collapseWs_head : ∀ (c : Char) (cs : List Char),
    (collapseWs (c :: cs)).head? = some (if pyIsSpace c then ' ' else c) := by
  intro c cs
  induction cs generalizing c with
  | nil =>
    rw [collapseWs]
    by_cases h : pyIsSpace c = true
    · rw [if_pos h, if_pos h]; rfl
    · rw [if_neg h, if_neg h]; rfl
  | cons d cs2 ih =>
    rw [collapseWs]
    by_cases h : (pyIsSpace c && pyIsSpace d) = true
    · rw [if_pos h]
      have h2 := h
      rw [Bool.and_eq_true] at h2
      obtain ⟨hc, hd⟩ := h2
      rw [ih d, if_pos hd, if_pos hc]
    · rw [if_neg h]
      rfl

theorem noWsPair_collapseWs : ∀ l : List Char, noWsPair (collapseWs l) = true := by
  intro l
  induction l with
  | nil => rfl
  | cons c cs ih =>
    cases cs with
    | nil =>
      rw [collapseWs]
      by_cases h : pyIsSpace c = true
      · rw [if_pos h]; rfl
      · rw [if_neg h]; rfl
    | cons d cs2 =>
      rw [collapseWs]
      by_cases h : (pyIsSpace c && pyIsSpace d) = true
      · rw [if_pos h]; exact ih
      · rw [if_neg h]
        rw [noWsPair] at ih ⊢
        refine (pairOkB_cons_iff _ _ _).mpr ⟨?_, ih⟩
        intro b hb
        rw [collapseWs_head d cs2] at hb
        have hb2 : (if pyIsSpace d then ' ' else d) = b := by injection hb
        show (!(pyIsSpace (if pyIsSpace c then ' ' else c) && pyIsSpace b)) = true
        rw [← hb2]
        by_cases hc : pyIsSpace c = true
        · have hd : pyIsSpace d = false := by
            by_contra hdd
            rw [Bool.not_eq_false] at hdd
            exact h (by rw [hc, hdd]; rfl)
          simp [hc, hd]
        · rw [Bool.not_eq_true] at hc
          simp [hc]

theorem hasGt_append (a b : List Char) : hasGt (a ++ b) = (hasGt a || hasGt b) := by
  induction a with
  | nil => rfl
  | cons c cs ih => rw [List.cons_append, hasGt, hasGt, ih, Bool.or_assoc]

theorem hasGt_eq_false_iff (l : List Char) : hasGt l = false ↔ '>' ∉ l := by
  induction l with
  | nil => simp [hasGt]
  | cons c cs ih =>
    rw [hasGt, Bool.or_eq_false_iff]
    constructor
    · rintro ⟨h1, h2⟩ hmem
      rcases List.mem_cons.mp hmem with rfl | hm
      · simp at h1
      · exact (ih.mp h2) hm
    · intro h
      refine ⟨?_, ih.mpr (fun hm => h (List.mem_cons_of_mem _ hm))⟩
      have hne : c ≠ '>' := fun hcc => h (hcc ▸ List.mem_cons_self _ _)
      exact beq_eq_false_iff_ne.mpr hne

theorem headIsGt_false_of_not_mem (l : List Char) (h : '>' ∉ l) : headIsGt l = false := by
  cases l with
  | nil => rfl
  | cons c cs =>
    rw [headIsGt]
    have hne : c ≠ '>' := fun hc => h (hc ▸ List.mem_cons_self _ _)
    exact beq_eq_false_iff_ne.mpr hne

theorem headIsGt_false_of_hasGt (l : List Char) (h : hasGt l = false) : headIsGt l = false :=
  headIsGt_false_of_not_mem l ((hasGt_eq_false_iff l).mp h)

theorem subPlc_no_gt : ∀ l : List Char, hasGt l = false → subPlaceholderAux none l = l := by
  intro l
  induction l with
  | nil => intro _; rfl
  | cons c cs ih =>
    intro h
    rw [hasGt, Bool.or_eq_false_iff] at h
    rw [subPlaceholderAux]
    by_cases hlt : (c == '<') = true
    · rw [if_pos hlt]
      have h1 := headIsGt_false_of_hasGt cs h.2
      have hc : c = '<' := eq_of_beq hlt
      rw [h1, h.2]
      simp only [Bool.false_eq_true, if_false]
      rw [ih h.2, hc]
    · rw [if_neg hlt]
      rw [ih h.2]

theorem subPlc_no_lt : ∀ l : List Char, '<' ∉ l → subPlaceholderAux none l = l := by
  intro l
  induction l with
  | nil => intro _; rfl
  | cons c cs ih =>
    intro h
    have hcn : ¬((c == '<') = true) := by
      simp only [beq_iff_eq]
      exact fun hcc => h (hcc ▸ List.mem_cons_self _ _)
    rw [subPlaceholderAux, if_neg hcn]
    rw [ih (fun hm => h (List.mem_cons_of_mem _ hm))]

theorem subPlc_append_no_lt (u v : List Char) (hu : '<' ∉ u) :
    subPlaceholderAux none (u ++ v) = u ++ subPlaceholderAux none v := by
  induction u with
  | nil => rfl
  | cons c u2 ih =>
    have hcn : ¬((c == '<') = true) := by
      simp only [beq_iff_eq]
      exact fun hcc => hu (hcc ▸ List.mem_cons_self _ _)
    rw [List.cons_append, subPlaceholderAux, if_neg hcn, List.cons_append]
    rw [ih (fun hm => hu (List.mem_cons_of_mem _ hm))]

theorem subPlc_collect : ∀ (cs buf : List Char), hasGt cs = true →
    subPlaceholderAux (some buf) cs =
      '<' :: (pyStripWs (buf.reverse ++ cs.takeWhile (fun x => !(x == '>'))) ++
        '>' :: subPlaceholderAux none ((cs.dropWhile (fun x => !(x == '>'))).tail)) := by
  intro cs
  induction cs with
  | nil => intro buf h; simp [hasGt] at h
  | cons c cs2 ih =>
    intro buf h
    by_cases hgt : (c == '>') = true
    · rw [subPlaceholderAux, if_pos hgt]
      have hc : c = '>' := eq_of_beq hgt
      subst hc
      simp [List.takeWhile_cons, List.dropWhile_cons]
    · have hgf : (c == '>') = false := by
        revert hgt; cases (c == '>') <;> simp
      have hcs : hasGt cs2 = true := by
        rw [hasGt, hgf, Bool.false_or] at h
        exact h
      rw [subPlaceholderAux, if_neg hgt]
      rw [ih (c :: buf) hcs]
      simp [List.reverse_cons, List.append_assoc, List.takeWhile_cons,
        List.dropWhile_cons, hgf]

theorem mem_subPlaceholderAux : ∀ (l : List Char) (st : Option (List Char)) (c : Char),
    c ∈ subPlaceholderAux st l →
    c ∈ l ∨ (∃ buf, st = some buf ∧ c ∈ buf) ∨ c = '<' ∨ c = '>' := by
  intro l
  induction l with
  | nil =>
    intro st c hc
    cases st with
    | none => rw [subPlaceholderAux] at hc; cases hc
    | some buf =>
      rw [subPlaceholderAux] at hc
      rcases List.mem_cons.mp hc with rfl | h
      · exact Or.inr (Or.inr (Or.inl rfl))
      · exact Or.inr (Or.inl ⟨buf, rfl, List.mem_reverse.mp h⟩)
  | cons a cs ih =>
    intro st c hc
    cases st with
    | none =>
      rw [subPlaceholderAux] at hc
      by_cases hlt : (a == '<') = true
      · rw [if_pos hlt] at hc
        by_cases hhg : headIsGt cs = true
        · rw [if_pos hhg] at hc
          rcases List.mem_cons.mp hc with rfl | h
          · exact Or.inr (Or.inr (Or.inl rfl))
          · rcases ih none c h with h2 | h2 | h2
            · exact Or.inl (List.mem_cons_of_mem _ h2)
            · rcases h2 with ⟨buf, hb, _⟩; cases hb
            · exact Or.inr (Or.inr h2)
        · rw [if_neg hhg] at hc
          by_cases hg : hasGt cs = true
          · rw [if_pos hg] at hc
            rcases ih (some []) c hc with h2 | h2 | h2
            · exact Or.inl (List.mem_cons_of_mem _ h2)
            · rcases h2 with ⟨buf, hb, hcb⟩
              obtain rfl : ([] : List Char) = buf := by injection hb
              cases hcb
            · exact Or.inr (Or.inr h2)
          · rw [if_neg hg] at hc
            rcases List.mem_cons.mp hc with rfl | h
            · exact Or.inr (Or.inr (Or.inl rfl))
            · rcases ih none c h with h2 | h2 | h2
              · exact Or.inl (List.mem_cons_of_mem _ h2)
              · rcases h2 with ⟨buf, hb, _⟩; cases hb
              · exact Or.inr (Or.inr h2)
      · rw [if_neg hlt] at hc
        rcases List.mem_cons.mp hc with rfl | h
        · exact Or.inl (List.mem_cons_self _ _)
        · rcases ih none c h with h2 | h2 | h2
          · exact Or.inl (List.mem_cons_of_mem _ h2)
          · rcases h2 with ⟨buf, hb, _⟩; cases hb
          · exact Or.inr (Or.inr h2)
    | some buf =>
      rw [subPlaceholderAux] at hc
      by_cases hgt : (a == '>') = true
      · rw [if_pos hgt] at hc
        rcases List.mem_cons.mp hc with rfl | h
        · exact Or.inr (Or.inr (Or.inl rfl))
        · rcases List.mem_append.mp h with h2 | h2
          · have h3 : c ∈ buf.reverse :=
              (stripBoth_chunk pyIsSpace buf.reverse).subset h2
            exact Or.inr (Or.inl ⟨buf, rfl, List.mem_reverse.mp h3⟩)
          · rcases List.mem_cons.mp h2 with rfl | h3
            · exact Or.inr (Or.inr (Or.inr rfl))
            · rcases ih none c h3 with h4 | h4 | h4
              · exact Or.inl (List.mem_cons_of_mem _ h4)
              · rcases h4 with ⟨b2, hb, _⟩; cases hb
              · exact Or.inr (Or.inr h4)
      · rw [if_neg hgt] at hc
        rcases ih (some (a :: buf)) c hc with h2 | h2 | h2
        · exact Or.inl (List.mem_cons_of_mem _ h2)
        · rcases h2 with ⟨b2, hb, hcb⟩
          have hh : a :: buf = b2 := by injection hb
          rw [← hh] at hcb
          rcases List.mem_cons.mp hcb with rfl | h3
          · exact Or.inl (List.mem_cons_self _ _)
          · exact Or.inr (Or.inl ⟨buf, rfl, h3⟩)
        · exact Or.inr (Or.inr h2)

theorem subPlc_some_head : ∀ (l buf : List Char),
    (subPlaceholderAux (some buf) l).head? = some '<' := by
  intro l
  induction l with
  | nil => intro buf; rfl
  | cons a cs ih =>
    intro buf
    rw [subPlaceholderAux]
    by_cases hgt : (a == '>') = true
    · rw [if_pos hgt]; rfl
    · rw [if_neg hgt]; exact ih (a :: buf)

theorem subPlc_none_head (l : List Char) (e : Char)
    (h : (subPlaceholderAux none l).head? = some e) :
    l.head? = some e ∨ e = '<' := by
  cases l with
  | nil => rw [subPlaceholderAux] at h; cases h
  | cons a cs =>
    rw [subPlaceholderAux] at h
    by_cases hlt : (a == '<') = true
    · rw [if_pos hlt] at h
      by_cases hhg : headIsGt cs = true
      · rw [if_pos hhg] at h
        rw [List.head?_cons] at h
        exact Or.inr (by injection h with hh; exact hh.symm)
      · rw [if_neg hhg] at h
        by_cases hg : hasGt cs = true
        · rw [if_pos hg] at h
          rw [subPlc_some_head cs []] at h
          exact Or.inr (by injection h with hh; exact hh.symm)
        · rw [if_neg hg] at h
          rw [List.head?_cons] at h
          exact Or.inr (by injection h with hh; exact hh.symm)
    · rw [if_neg hlt] at h
      rw [List.head?_cons] at h
      exact Or.inl (by rw [List.head?_cons]; exact h)

theorem pairOkB_subPlaceholderAux (P : Char → Char → Bool)
    (hA : ∀ b, P '<' b = true) (hB : ∀ a, P a '>' = true)
    (hC : ∀ b, P '>' b = true) (hD : ∀ a, P a '<' = true) :
    ∀ (l : List Char) (st : Option (List Char)),
    (st = none → pairOkB P l = true) →
    (∀ buf, st = some buf → pairOkB P (buf.reverse ++ l) = true) →
    pairOkB P (subPlaceholderAux st l) = true := by
  intro l
  induction l with
  | nil =>
    intro st h1 h2
    cases st with
    | none => rw [subPlaceholderAux]; rfl
    | some buf =>
      rw [subPlaceholderAux]
      refine (pairOkB_cons_iff _ _ _).mpr ⟨fun b _ => hA b, ?_⟩
      have h3 := h2 buf rfl
      rw [List.append_nil] at h3
      exact h3
  | cons a cs ih =>
    intro st h1 h2
    cases st with
    | none =>
      have hl := h1 rfl
      rw [subPlaceholderAux]
      by_cases hlt : (a == '<') = true
      · rw [if_pos hlt]
        by_cases hhg : headIsGt cs = true
        · rw [if_pos hhg]
          exact (pairOkB_cons_iff _ _ _).mpr ⟨fun b _ => hA b,
            ih none (fun _ => pairOkB_tail P a cs hl) (fun buf hb => by cases hb)⟩
        · rw [if_neg hhg]
          by_cases hg : hasGt cs = true
          · rw [if_pos hg]
            refine ih (some []) (fun hb => by cases hb) ?_
            intro buf hb
            obtain rfl : ([] : List Char) = buf := by injection hb
            rw [List.reverse_nil, List.nil_append]
            exact pairOkB_tail P a cs hl
          · rw [if_neg hg]
            exact (pairOkB_cons_iff _ _ _).mpr ⟨fun b _ => hA b,
              ih none (fun _ => pairOkB_tail P a cs hl) (fun buf hb => by cases hb)⟩
      · rw [if_neg hlt]
        refine (pairOkB_cons_iff _ _ _).mpr ⟨?_,
          ih none (fun _ => pairOkB_tail P a cs hl) (fun buf hb => by cases hb)⟩
        intro b hb
        rcases subPlc_none_head cs b hb with h3 | h3
        · exact ((pairOkB_cons_iff P a cs).mp hl).1 b h3
        · rw [h3]; exact hD a
    | some buf =>
      have hl := h2 buf rfl
      rw [subPlaceholderAux]
      by_cases hgt : (a == '>') = true
      · rw [if_pos hgt]
        refine (pairOkB_cons_iff _ _ _).mpr ⟨fun b _ => hA b, ?_⟩
        refine (pairOkB_append_iff _ _ _).mpr ⟨?_, ?_, ?_⟩
        · have hbr : pairOkB P buf.reverse = true :=
            pairOkB_front P buf.reverse (buf.reverse ++ a :: cs) ⟨a :: cs, rfl⟩ hl
          exact pairOkB_chunk P _ _ (stripBoth_chunk pyIsSpace buf.reverse) hbr
        · refine (pairOkB_cons_iff _ _ _).mpr ⟨fun b _ => hC b, ?_⟩
          have hcs : pairOkB P cs = true := by
            have hsuf : pairOkB P (a :: cs) = true :=
              pairOkB_suffix P (a :: cs) (buf.reverse ++ a :: cs) ⟨buf.reverse, rfl⟩ hl
            exact pairOkB_tail P a cs hsuf
          exact ih none (fun _ => hcs) (fun b2 hb => by cases hb)
        · intro x y hx hy
          rw [List.head?_cons] at hy
          obtain rfl : '>' = y := by injection hy
          exact hB x
      · rw [if_neg hgt]
        refine ih (some (a :: buf)) (fun hb => by cases hb) ?_
        intro b2 hb
        have hh : a :: buf = b2 := by injection hb
        rw [← hh, List.reverse_cons, List.append_assoc]
        exact hl

theorem subPlc_lt_gt (X : List Char) :
    subPlaceholderAux none ('<' :: '>' :: X) = '<' :: '>' :: subPlaceholderAux none X := by
  simp [subPlaceholderAux, headIsGt]

theorem subPlc_idem_aux : ∀ (n : Nat) (l : List Char), l.length ≤ n →
    subPlaceholderAux none (subPlaceholderAux none l) = subPlaceholderAux none l := by
  intro n
  induction n with
  | zero =>
    intro l hl
    have h0 : l = [] := List.length_eq_zero.mp (Nat.le_zero.mp hl)
    subst h0
    rfl
  | succ n ih =>
    intro l hl
    cases l with
    | nil => rfl
    | cons a cs =>
      rw [List.length_cons] at hl
      have hl2 : cs.length ≤ n := by omega
      by_cases hlt : (a == '<') = true
      · have ha : a = '<' := eq_of_beq hlt
        subst ha
        by_cases hhg : headIsGt cs = true
        · cases cs with
          | nil => simp [headIsGt] at hhg
          | cons d cs2 =>
            rw [headIsGt] at hhg
            have hd : d = '>' := eq_of_beq hhg
            subst hd
            rw [List.length_cons] at hl2
            have hl3 : cs2.length ≤ n := by omega
            rw [subPlc_lt_gt, subPlc_lt_gt, ih cs2 hl3]
        · by_cases hg : hasGt cs = true
          · rw [subPlaceholderAux, if_pos hlt, if_neg hhg, if_pos hg]
            rw [subPlc_collect cs [] hg]
            simp only [List.reverse_nil, List.nil_append]
            have hn2 : ((cs.dropWhile (fun x => !(x == '>'))).tail).length ≤ n := by
              have t1 : (cs.dropWhile (fun x => !(x == '>'))).length ≤ cs.length :=
                (List.dropWhile_sublist (l := cs) (p := fun x => !(x == '>'))).length_le
              rw [List.length_tail]
              omega
            have hnogt : '>' ∉ pyStripWs (cs.takeWhile (fun y => !(y == '>'))) := by
              intro hmem
              have h2 : '>' ∈ cs.takeWhile (fun y => !(y == '>')) :=
                (stripBoth_chunk pyIsSpace _).subset hmem
              have h3 := List.mem_takeWhile_imp h2
              simp at h3
            cases hs : pyStripWs (cs.takeWhile (fun y => !(y == '>'))) with
            | nil =>
              rw [List.nil_append]
              rw [subPlc_lt_gt, ih _ hn2]
            | cons e s2 =>
              have hnogt2 : '>' ∉ e :: s2 := by rw [← hs]; exact hnogt
              have hehd : (e == '>') = false :=
                beq_eq_false_iff_ne.mpr
                  (fun hee => hnogt2 (hee ▸ List.mem_cons_self _ _))
              have hall : ∀ x ∈ e :: s2, (fun y => !(y == '>')) x = true := by
                intro x hx
                cases hxb : (x == '>') with
                | false => show (!(x == '>')) = true; rw [hxb]; rfl
                | true => exact absurd (eq_of_beq hxb ▸ hx) hnogt2
              have hlt2 : (('<' : Char) == '<') = true := by decide
              have hhg2 : ¬(headIsGt ((e :: s2) ++ '>' :: subPlaceholderAux none
                  ((cs.dropWhile (fun x => !(x == '>'))).tail)) = true) := by
                rw [List.cons_append, headIsGt, hehd]
                exact Bool.false_ne_true
              have hg2 : hasGt ((e :: s2) ++ '>' :: subPlaceholderAux none
                  ((cs.dropWhile (fun x => !(x == '>'))).tail)) = true := by
                rw [hasGt_append]
                have hy : hasGt ('>' :: subPlaceholderAux none
                    ((cs.dropWhile (fun x => !(x == '>'))).tail)) = true := by
                  simp [hasGt]
                rw [hy, Bool.or_true]
              rw [subPlaceholderAux, if_pos hlt2, if_neg hhg2, if_pos hg2]
              rw [subPlc_collect _ [] hg2]
              rw [List.reverse_nil, List.nil_append]
              rw [takeWhile_append_all _ _ _ hall]
              rw [dropWhile_append_all _ _ _ hall]
              have htw : ('>' :: subPlaceholderAux none
                  ((cs.dropWhile (fun x => !(x == '>'))).tail)).takeWhile
                    (fun y => !(y == '>')) = [] := by
                simp [List.takeWhile_cons]
              have hdw : ('>' :: subPlaceholderAux none
                  ((cs.dropWhile (fun x => !(x == '>'))).tail)).dropWhile
                    (fun y => !(y == '>')) = '>' :: subPlaceholderAux none
                      ((cs.dropWhile (fun x => !(x == '>'))).tail) := by
                simp [List.dropWhile_cons]
              rw [htw, List.append_nil, hdw, List.tail_cons]
              have hid : pyStripWs (e :: s2) = e :: s2 := by
                rw [← hs]
                exact stripBoth_idem pyIsSpace _
              rw [hid, ih _ hn2]
          · have hgl : hasGt ('<' :: cs) = false := by
              rw [hasGt]
              have hgf : hasGt cs = false := by
                revert hg; cases hasGt cs <;> simp
              rw [hgf]
              rfl
            rw [subPlc_no_gt _ hgl, subPlc_no_gt _ hgl]
      · rw [subPlaceholderAux, if_neg hlt]
        rw [subPlaceholderAux, if_neg hlt]
        rw [ih cs hl2]

theorem subPlc_append_free_aux (t : List Char) (hlt : '<' ∉ t) (hgt : '>' ∉ t) :
    ∀ (n : Nat) (v : List Char), v.length ≤ n → ∀ st : Option (List Char),
    (st = none ∨ hasGt v = true) →
    subPlaceholderAux st (v ++ t) = subPlaceholderAux st v ++ t := by
  intro n
  induction n with
  | zero =>
    intro v hv st hst
    have h0 : v = [] := List.length_eq_zero.mp (Nat.le_zero.mp hv)
    subst h0
    rcases hst with hst | hst
    · subst hst
      rw [List.nil_append, subPlc_no_lt t hlt, subPlaceholderAux, List.nil_append]
    · simp [hasGt] at hst
  | succ n ih =>
    intro v hv st hst
    cases v with
    | nil =>
      rcases hst with hst | hst
      · subst hst
        rw [List.nil_append, subPlc_no_lt t hlt, subPlaceholderAux, List.nil_append]
      · simp [hasGt] at hst
    | cons a cs =>
      rw [List.length_cons] at hv
      have hv2 : cs.length ≤ n := by omega
      cases st with
      | none =>
        rw [List.cons_append]
        by_cases hlt2 : (a == '<') = true
        · cases cs with
          | nil =>
            have hhgt : headIsGt t = false := headIsGt_false_of_not_mem t hgt
            have hhgf : hasGt t = false := (hasGt_eq_false_iff t).mpr hgt
            rw [subPlaceholderAux, if_pos hlt2, List.nil_append]
            rw [hhgt]
            simp only [Bool.false_eq_true, if_false]
            rw [hhgf]
            simp only [Bool.false_eq_true, if_false]
            rw [subPlc_no_lt t hlt]
            rw [subPlaceholderAux, if_pos hlt2]
            rw [headIsGt, hasGt]
            simp only [Bool.false_eq_true, if_false]
            rw [subPlaceholderAux, List.cons_append, List.nil_append]
          | cons d cs2 =>
            rw [subPlaceholderAux, if_pos hlt2]
            rw [subPlaceholderAux, if_pos hlt2]
            rw [List.cons_append, headIsGt, headIsGt]
            by_cases hg1 : (d == '>') = true
            · rw [if_pos hg1, if_pos hg1]
              rw [← List.cons_append, ih (d :: cs2) hv2 none (Or.inl rfl)]
              rw [List.cons_append]
            · rw [if_neg hg1, if_neg hg1]
              rw [← List.cons_append, hasGt_append, (hasGt_eq_false_iff t).mpr hgt,
                Bool.or_false]
              by_cases hg2 : hasGt (d :: cs2) = true
              · rw [if_pos hg2, if_pos hg2]
                exact ih (d :: cs2) hv2 (some []) (Or.inr hg2)
              · rw [if_neg hg2, if_neg hg2]
                rw [ih (d :: cs2) hv2 none (Or.inl rfl), List.cons_append]
        · rw [subPlaceholderAux, if_neg hlt2]
          rw [subPlaceholderAux, if_neg hlt2]
          rw [ih cs hv2 none (Or.inl rfl), List.cons_append]
      | some buf =>
        have hgv : hasGt (a :: cs) = true := by
          rcases hst with hst | hst
          · cases hst
          · exact hst
        rw [List.cons_append]
        by_cases hagt : (a == '>') = true
        · rw [subPlaceholderAux, if_pos hagt]
          rw [subPlaceholderAux, if_pos hagt]
          rw [ih cs hv2 none (Or.inl rfl)]
          simp [List.cons_append, List.append_assoc]
        · rw [subPlaceholderAux, if_neg hagt]
          rw [subPlaceholderAux, if_neg hagt]
          have hgcs : hasGt cs = true := by
            rw [hasGt] at hgv
            have hgf : (a == '>') = false := by
              revert hagt; cases (a == '>') <;> simp
            rw [hgf, Bool.false_or] at hgv
            exact hgv
          exact ih cs hv2 (some (a :: buf)) (Or.inr hgcs)

theorem subPlc_append_free (v t : List Char) (h1 : '<' ∉ t) (h2 : '>' ∉ t) :
    subPlaceholderAux none (v ++ t) = subPlaceholderAux none v ++ t :=
  subPlc_append_free_aux t h1 h2 v.length v le_rfl none (Or.inl rfl)

theorem subColonAux_eat_head : ∀ (l : List Char) (e : Char),
    (subColonAux .eat l).head? = some e → e = ':' := by
  intro l
  induction l with
  | nil => intro e h; rw [subColonAux] at h; cases h
  | cons a cs ih =>
    intro e h
    cases cs with
    | nil => simp [subColonAux] at h
    | cons b r =>
      rw [subColonAux] at h
      by_cases hab : (a == ':' && b == '-') = true
      · rw [if_pos hab] at h
        rw [List.head?_cons] at h
        injection h with hh
        exact hh.symm
      · rw [if_neg hab] at h
        exact ih e h

theorem subColonAux_skip_head : ∀ (l : List Char) (e : Char),
    (subColonAux .skip l).head? = some e → pyIsSpace e = false := by
  intro l
  induction l with
  | nil => intro e h; rw [subColonAux] at h; cases h
  | cons a cs ih =>
    intro e h
    cases cs with
    | nil =>
      rw [subColonAux] at h
      by_cases hws : pyIsSpace a = true
      · rw [if_pos hws] at h; cases h
      · rw [if_neg hws] at h
        rw [List.head?_cons] at h
        injection h with hh
        rw [← hh]
        revert hws
        cases pyIsSpace a <;> simp
    | cons b r =>
      rw [subColonAux] at h
      by_cases hws : pyIsSpace a = true
      · rw [if_pos hws] at h
        exact ih e h
      · rw [if_neg hws] at h
        by_cases hab : (a == ':' && b == '-') = true
        · rw [if_pos hab] at h
          rw [List.head?_cons] at h
          injection h with hh
          rw [← hh]
          decide
        · rw [if_neg hab] at h
          rw [List.head?_cons] at h
          injection h with hh
          rw [← hh]
          exact Bool.not_eq_true _ |>.mp hws

theorem subColonAux_normal_head : ∀ (l : List Char) (e : Char),
    (subColonAux .normal l).head? = some e → e = ':' ∨ l.head? = some e := by
  intro l e h
  cases l with
  | nil => rw [subColonAux] at h; cases h
  | cons a cs =>
    cases cs with
    | nil =>
      rw [subColonAux] at h
      exact Or.inr h
    | cons b r =>
      rw [subColonAux] at h
      by_cases hab : (a == ':' && b == '-') = true
      · rw [if_pos hab] at h
        rw [List.head?_cons] at h
        injection h with hh
        exact Or.inl hh.symm
      · rw [if_neg hab] at h
        by_cases hg : (pyIsSpace a && wsThenColonDash (b :: r)) = true
        · rw [if_pos hg] at h
          exact Or.inl (subColonAux_eat_head _ e h)
        · rw [if_neg hg] at h
          exact Or.inr h

theorem noWsPair_subColonAux (l : List Char) (mode : SubMode)
    (h : noWsPair l = true) : noWsPair (subColonAux mode l) = true := by
  rw [noWsPair] at h ⊢
  induction mode, l using subColonAux.induct with
  | case1 m => rw [subColonAux]; rfl
  | case2 d => rw [subColonAux]; rfl
  | case3 d hws => rw [subColonAux, if_pos hws]; rfl
  | case4 d hws => rw [subColonAux, if_neg hws]; rfl
  | case5 d => rw [subColonAux]; rfl
  | case6 a b r hab ih =>
    rw [subColonAux, if_pos hab]
    refine (pairOkB_cons_iff _ _ _).mpr ⟨?_, ?_⟩
    · intro x hx
      rw [List.head?_cons] at hx
      injection hx with hh
      rw [← hh]
      decide
    · refine (pairOkB_cons_iff _ _ _).mpr ⟨?_, ?_⟩
      · intro x hx
        have hxw := subColonAux_skip_head r x hx
        show (!(pyIsSpace ' ' && pyIsSpace x)) = true
        rw [hxw]
        simp
      · exact ih (pairOkB_tail _ _ _ (pairOkB_tail _ _ _ h))
  | case7 a b r hab ih =>
    rw [subColonAux, if_neg hab]
    exact ih (pairOkB_tail _ _ _ h)
  | case8 a b r hws ih =>
    rw [subColonAux, if_pos hws]
    exact ih (pairOkB_tail _ _ _ h)
  | case9 a b r hws hab ih =>
    rw [subColonAux, if_neg hws, if_pos hab]
    refine (pairOkB_cons_iff _ _ _).mpr ⟨?_, ?_⟩
    · intro x hx
      rw [List.head?_cons] at hx
      injection hx with hh
      rw [← hh]
      decide
    · refine (pairOkB_cons_iff _ _ _).mpr ⟨?_, ?_⟩
      · intro x hx
        have hxw := subColonAux_skip_head r x hx
        show (!(pyIsSpace ' ' && pyIsSpace x)) = true
        rw [hxw]
        simp
      · exact ih (pairOkB_tail _ _ _ (pairOkB_tail _ _ _ h))
  | case10 a b r hws hab ih =>
    rw [subColonAux, if_neg hws, if_neg hab]
    refine (pairOkB_cons_iff _ _ _).mpr ⟨?_, ih (pairOkB_tail _ _ _ h)⟩
    intro x hx
    rcases subColonAux_normal_head (b :: r) x hx with h2 | h2
    · show (!(pyIsSpace a && pyIsSpace x)) = true
      rw [h2]
      have hcol : pyIsSpace ':' = false := by decide
      rw [hcol, Bool.and_false]
      rfl
    · rw [List.head?_cons] at h2
      injection h2 with hh
      rw [← hh]
      exact ((pairOkB_cons_iff _ _ _).mp h).1 b (by rw [List.head?_cons])
  | case11 a b r hab ih =>
    rw [subColonAux, if_pos hab]
    refine (pairOkB_cons_iff _ _ _).mpr ⟨?_, ?_⟩
    · intro x hx
      rw [List.head?_cons] at hx
      injection hx with hh
      rw [← hh]
      decide
    · refine (pairOkB_cons_iff _ _ _).mpr ⟨?_, ?_⟩
      · intro x hx
        have hxw := subColonAux_skip_head r x hx
        show (!(pyIsSpace ' ' && pyIsSpace x)) = true
        rw [hxw]
        simp
      · exact ih (pairOkB_tail _ _ _ (pairOkB_tail _ _ _ h))
  | case12 a b r hab hg ih =>
    rw [subColonAux, if_neg hab, if_pos hg]
    exact ih (pairOkB_tail _ _ _ h)
  | case13 a b r hab hg ih =>
    rw [subColonAux, if_neg hab, if_neg hg]
    refine (pairOkB_cons_iff _ _ _).mpr ⟨?_, ih (pairOkB_tail _ _ _ h)⟩
    intro x hx
    rcases subColonAux_normal_head (b :: r) x hx with h2 | h2
    · show (!(pyIsSpace a && pyIsSpace x)) = true
      rw [h2]
      have hcol : pyIsSpace ':' = false := by decide
      rw [hcol, Bool.and_false]
      rfl
    · rw [List.head?_cons] at h2
      injection h2 with hh
      rw [← hh]
      exact ((pairOkB_cons_iff _ _ _).mp h).1 b (by rw [List.head?_cons])

theorem noCD_subColonAux (l : List Char) (mode : SubMode) :
    noCD (subColonAux mode l) = true := by
  rw [noCD]
  induction mode, l using subColonAux.induct with
  | case1 m => rw [subColonAux]; rfl
  | case2 d => rw [subColonAux]; rfl
  | case3 d hws => rw [subColonAux, if_pos hws]; rfl
  | case4 d hws => rw [subColonAux, if_neg hws]; rfl
  | case5 d => rw [subColonAux]; rfl
  | case6 a b r hab ih =>
    rw [subColonAux, if_pos hab]
    refine (pairOkB_cons_iff _ _ _).mpr ⟨?_, ?_⟩
    · intro x hx
      rw [List.head?_cons] at hx
      injection hx with hh
      rw [← hh]
      decide
    · refine (pairOkB_cons_iff _ _ _).mpr ⟨?_, ih⟩
      intro x _
      have h1 : ((' ' : Char) == ':') = false := by decide
      show (!((' ' == ':') && (x == '-'))) = true
      rw [h1, Bool.false_and]
      rfl
  | case7 a b r hab ih =>
    rw [subColonAux, if_neg hab]
    exact ih
  | case8 a b r hws ih =>
    rw [subColonAux, if_pos hws]
    exact ih
  | case9 a b r hws hab ih =>
    rw [subColonAux, if_neg hws, if_pos hab]
    refine (pairOkB_cons_iff _ _ _).mpr ⟨?_, ?_⟩
    · intro x hx
      rw [List.head?_cons] at hx
      injection hx with hh
      rw [← hh]
      decide
    · refine (pairOkB_cons_iff _ _ _).mpr ⟨?_, ih⟩
      intro x _
      have h1 : ((' ' : Char) == ':') = false := by decide
      show (!((' ' == ':') && (x == '-'))) = true
      rw [h1, Bool.false_and]
      rfl
  | case10 a b r hws hab ih =>
    rw [subColonAux, if_neg hws, if_neg hab]
    refine (pairOkB_cons_iff _ _ _).mpr ⟨?_, ih⟩
    intro x hx
    rcases subColonAux_normal_head (b :: r) x hx with h2 | h2
    · show (!((a == ':') && (x == '-'))) = true
      rw [h2]
      have hcd : ((':' : Char) == '-') = false := by decide
      rw [hcd, Bool.and_false]
      rfl
    · rw [List.head?_cons] at h2
      injection h2 with hh
      rw [← hh]
      show (!((a == ':') && (b == '-'))) = true
      have habf : (a == ':' && b == '-') = false := by
        revert hab; cases (a == ':' && b == '-') <;> simp
      rw [habf]
      rfl
  | case11 a b r hab ih =>
    rw [subColonAux, if_pos hab]
    refine (pairOkB_cons_iff _ _ _).mpr ⟨?_, ?_⟩
    · intro x hx
      rw [List.head?_cons] at hx
      injection hx with hh
      rw [← hh]
      decide
    · refine (pairOkB_cons_iff _ _ _).mpr ⟨?_, ih⟩
      intro x _
      have h1 : ((' ' : Char) == ':') = false := by decide
      show (!((' ' == ':') && (x == '-'))) = true
      rw [h1, Bool.false_and]
      rfl
  | case12 a b r hab hg ih =>
    rw [subColonAux, if_neg hab, if_pos hg]
    exact ih
  | case13 a b r hab hg ih =>
    rw [subColonAux, if_neg hab, if_neg hg]
    refine (pairOkB_cons_iff _ _ _).mpr ⟨?_, ih⟩
    intro x hx
    rcases subColonAux_normal_head (b :: r) x hx with h2 | h2
    · show (!((a == ':') && (x == '-'))) = true
      rw [h2]
      have hcd : ((':' : Char) == '-') = false := by decide
      rw [hcd, Bool.and_false]
      rfl
    · rw [List.head?_cons] at h2
      injection h2 with hh
      rw [← hh]
      show (!((a == ':') && (b == '-'))) = true
      have habf : (a == ':' && b == '-') = false := by
        revert hab; cases (a == ':' && b == '-') <;> simp
      rw [habf]
      rfl

theorem subLSAux_head (p rep : List Char) (hne : rep ≠ []) (prevW : Bool)
    (l : List Char) (e : Char)
    (h : (subLSAux p rep 0 prevW l).head? = some e) :
    l.head? = some e ∨ rep.head? = some e := by
  cases l with
  | nil => rw [subLSAux] at h; cases h
  | cons c cs =>
    rw [subLSAux] at h
    split at h
    · split at h
      · cases rep with
        | nil => exact absurd rfl hne
        | cons r rs =>
          rw [List.cons_append, List.head?_cons] at h
          exact Or.inr (by rw [List.head?_cons]; exact h)
      · exact Or.inl h
    · exact Or.inl h

theorem pairOkB_subLSAux (P : Char → Char → Bool) (p rep : List Char)
    (hne : rep ≠ []) (hrep : pairOkB P rep = true)
    (hh : ∀ a e, rep.head? = some e → P a e = true)
    (hl : ∀ e b, rep.getLast? = some e → P e b = true) :
    ∀ (l : List Char) (skip : Nat) (prevW : Bool), pairOkB P l = true →
    pairOkB P (subLSAux p rep skip prevW l) = true := by
  intro l
  induction l with
  | nil => intro skip prevW _; cases skip <;> rfl
  | cons c cs ih =>
    intro skip prevW hin
    cases skip with
    | succ k =>
      rw [subLSAux]
      exact ih k true (pairOkB_tail _ _ _ hin)
    | zero =>
      rw [subLSAux]
      split
      · split
        · refine (pairOkB_append_iff _ _ _).mpr
            ⟨hrep, ih _ true (pairOkB_tail _ _ _ hin), ?_⟩
          intro x y hx _
          exact hl x y hx
        · refine (pairOkB_cons_iff _ _ _).mpr
            ⟨?_, ih 0 (isWordChar c) (pairOkB_tail _ _ _ hin)⟩
          intro b hb
          rcases subLSAux_head p rep hne _ cs b hb with h2 | h2
          · exact ((pairOkB_cons_iff _ _ _).mp hin).1 b h2
          · exact hh c b h2
      · refine (pairOkB_cons_iff _ _ _).mpr
          ⟨?_, ih 0 (isWordChar c) (pairOkB_tail _ _ _ hin)⟩
        intro b hb
        rcases subLSAux_head p rep hne _ cs b hb with h2 | h2
        · exact ((pairOkB_cons_iff _ _ _).mp hin).1 b h2
        · exact hh c b h2

theorem pairOkB_fix_letter_spacing (P : Char → Char → Bool)
    (hall : ∀ pr ∈ LETTER_SPACED_WORDS, pr.2 ≠ [] ∧ pairOkB P pr.2 = true ∧
      (∀ a e, pr.2.head? = some e → P a e = true) ∧
      (∀ e b, pr.2.getLast? = some e → P e b = true))
    (l : List Char) (h : pairOkB P l = true) :
    pairOkB P (fix_letter_spacing l) = true := by
  rw [fix_letter_spacing]
  have key : ∀ (tbl : List (List Char × List Char)),
      (∀ pr ∈ tbl, pr.2 ≠ [] ∧ pairOkB P pr.2 = true ∧
        (∀ a e, pr.2.head? = some e → P a e = true) ∧
        (∀ e b, pr.2.getLast? = some e → P e b = true)) →
      ∀ m : List Char, pairOkB P m = true →
      pairOkB P (tbl.foldl (fun acc pr => subLSAux pr.1 pr.2 0 false acc) m) = true := by
    intro tbl
    induction tbl with
    | nil => intro _ m hm; exact hm
    | cons pr t ih =>
      intro hcond m hm
      rw [List.foldl_cons]
      refine ih (fun q hq => hcond q (List.mem_cons_of_mem _ hq)) _ ?_
      obtain ⟨h1, h2, h3, h4⟩ := hcond pr (List.mem_cons_self _ _)
      exact pairOkB_subLSAux P pr.1 pr.2 h1 h2 h3 h4 m 0 false hm
  exact key LETTER_SPACED_WORDS hall l h

theorem LSW_reps_ws : ∀ pr ∈ LETTER_SPACED_WORDS, pr.2 ≠ [] ∧ noWsPair pr.2 = true ∧
    (pr.2.head?.all fun e => !pyIsSpace e) = true ∧
    (pr.2.getLast?.all fun e => !pyIsSpace e) = true := by decide

theorem LSW_reps_cd : ∀ pr ∈ LETTER_SPACED_WORDS, pr.2 ≠ [] ∧ noCD pr.2 = true ∧
    (pr.2.head?.all fun e => !(e == '-')) = true ∧
    (pr.2.getLast?.all fun e => !(e == ':')) = true := by decide

theorem LSW_reps_chars : ∀ pr ∈ LETTER_SPACED_WORDS,
    ('#' ∉ pr.2) ∧ spaceOnly pr.2 = true := by decide

theorem noWsPair_fix_letter_spacing (l : List Char) (h : noWsPair l = true) :
    noWsPair (fix_letter_spacing l) = true := by
  rw [noWsPair] at h ⊢
  refine pairOkB_fix_letter_spacing _ ?_ l h
  intro pr hpr
  obtain ⟨h1, h2, h3, h4⟩ := LSW_reps_ws pr hpr
  rw [noWsPair] at h2
  refine ⟨h1, h2, ?_, ?_⟩
  · intro a e he
    rw [he] at h3
    have h5 : (!pyIsSpace e) = true := by simpa using h3
    have h6 : pyIsSpace e = false := by revert h5; cases pyIsSpace e <;> simp
    show (!(pyIsSpace a && pyIsSpace e)) = true
    rw [h6, Bool.and_false]
    rfl
  · intro e b he
    rw [he] at h4
    have h5 : (!pyIsSpace e) = true := by simpa using h4
    have h6 : pyIsSpace e = false := by revert h5; cases pyIsSpace e <;> simp
    show (!(pyIsSpace e && pyIsSpace b)) = true
    rw [h6, Bool.false_and]
    rfl

theorem noCD_fix_letter_spacing (l : List Char) (h : noCD l = true) :
    noCD (fix_letter_spacing l) = true := by
  rw [noCD] at h ⊢
  refine pairOkB_fix_letter_spacing _ ?_ l h
  intro pr hpr
  obtain ⟨h1, h2, h3, h4⟩ := LSW_reps_cd pr hpr
  rw [noCD] at h2
  refine ⟨h1, h2, ?_, ?_⟩
  · intro a e he
    rw [he] at h3
    have h5 : (!(e == '-')) = true := by simpa using h3
    have h6 : (e == '-') = false := by revert h5; cases (e == '-') <;> simp
    show (!((a == ':') && (e == '-'))) = true
    rw [h6, Bool.and_false]
    rfl
  · intro e b he
    rw [he] at h4
    have h5 : (!(e == ':')) = true := by simpa using h4
    have h6 : (e == ':') = false := by revert h5; cases (e == ':') <;> simp
    show (!((e == ':') && (b == '-'))) = true
    rw [h6, Bool.false_and]
    rfl

theorem spaceOnly_intro (l : List Char)
    (h : ∀ c ∈ l, pyIsSpace c = true → c = ' ') : spaceOnly l = true := by
  rw [spaceOnly, List.all_eq_true]
  intro c hc
  show (!pyIsSpace c || (c == ' ')) = true
  cases hw : pyIsSpace c with
  | false => rfl
  | true =>
    have hce := h c hc hw
    subst hce
    decide

theorem spaceOnly_fix_letter_spacing (l : List Char) (h : spaceOnly l = true) :
    spaceOnly (fix_letter_spacing l) = true := by
  refine spaceOnly_intro _ ?_
  intro c hc hw
  rcases mem_fix_letter_spacing l c hc with h2 | ⟨pr, hpr, hcp⟩
  · exact spaceOnly_mem l c h h2 hw
  · exact spaceOnly_mem pr.2 c (LSW_reps_chars pr hpr).2 hcp hw

theorem not_hash_fix_letter_spacing (l : List Char) (h : '#' ∉ l) :
    '#' ∉ fix_letter_spacing l := by
  intro hc
  rcases mem_fix_letter_spacing l '#' hc with h2 | ⟨pr, hpr, hcp⟩
  · exact h h2
  · exact (LSW_reps_chars pr hpr).1 hcp

theorem cleanList_stable (l0 l1 l2 l5 l6 l7 yl : List Char)
    (hhash0 : '#' ∉ l0)
    (h1 : l1 = collapseWs (pyStripWs l0))
    (h2 : l2 = fix_letter_spacing l1)
    (h5 : l5 = subColonDash (subLoneHash (subHashRuns l2)))
    (h6 : l6 = subPlaceholder l5)
    (h7 : l7 = pyStripSet l6)
    (hyl : yl = pyStripWs l7)
    (hfix : fix_letter_spacing yl = yl) :
    pyStripWs (pyStripSet (subPlaceholder (subColonDash (subLoneHash (subHashRuns
      (fix_letter_spacing (collapseWs (pyStripWs yl)))))))) = yl := by
  have hh1 : '#' ∉ l1 := by
    rw [h1]
    intro hm
    rcases mem_collapseWs _ _ hm with h | h
    · exact hhash0 ((stripBoth_chunk _ _).subset h)
    · exact absurd h (by decide)
  have hsp1 : spaceOnly l1 = true := by rw [h1]; exact spaceOnly_collapseWs _
  have hnw1 : noWsPair l1 = true := by rw [h1]; exact noWsPair_collapseWs _
  have hh2 : '#' ∉ l2 := by rw [h2]; exact not_hash_fix_letter_spacing _ hh1
  have hsp2 : spaceOnly l2 = true := by
    rw [h2]; exact spaceOnly_fix_letter_spacing _ hsp1
  have hnw2 : noWsPair l2 = true := by
    rw [h2]; exact noWsPair_fix_letter_spacing _ hnw1
  have hhr : subHashRuns l2 = l2 := subHashRuns_id _ hh2
  have hlh : subLoneHash l2 = l2 := subLoneHash_id _ hh2
  have h5b : l5 = subColonDash l2 := by rw [h5, hhr, hlh]
  have hh5 : '#' ∉ l5 := by
    rw [h5b]
    intro hm
    rcases mem_subColonAux _ _ _ hm with h | h | h
    · exact hh2 h
    · exact absurd h (by decide)
    · exact absurd h (by decide)
  have hsp5 : spaceOnly l5 = true := by
    rw [h5b]
    refine spaceOnly_intro _ ?_
    intro c hc hw
    rcases mem_subColonAux _ _ _ hc with h | h | h
    · exact spaceOnly_mem _ _ hsp2 h hw
    · subst h; exact absurd hw (by decide)
    · exact h
  have hnw5 : noWsPair l5 = true := by
    rw [h5b]
    exact noWsPair_subColonAux _ _ hnw2
  have hcd5 : noCD l5 = true := by
    rw [h5b]
    exact noCD_subColonAux l2 .normal
  have hWA : ∀ b, (fun a b => !(pyIsSpace a && pyIsSpace b)) '<' b = true := by
    intro b
    show (!(pyIsSpace '<' && pyIsSpace b)) = true
    rw [show pyIsSpace '<' = false from by decide, Bool.false_and]
    rfl
  have hWB : ∀ a, (fun a b => !(pyIsSpace a && pyIsSpace b)) a '>' = true := by
    intro a
    show (!(pyIsSpace a && pyIsSpace '>')) = true
    rw [show pyIsSpace '>' = false from by decide, Bool.and_false]
    rfl
  have hWC : ∀ b, (fun a b => !(pyIsSpace a && pyIsSpace b)) '>' b = true := by
    intro b
    show (!(pyIsSpace '>' && pyIsSpace b)) = true
    rw [show pyIsSpace '>' = false from by decide, Bool.false_and]
    rfl
  have hWD : ∀ a, (fun a b => !(pyIsSpace a && pyIsSpace b)) a '<' = true := by
    intro a
    show (!(pyIsSpace a && pyIsSpace '<')) = true
    rw [show pyIsSpace '<' = false from by decide, Bool.and_false]
    rfl
  have hnw6 : noWsPair l6 = true := by
    rw [h6, noWsPair]
    refine pairOkB_subPlaceholderAux _ hWA hWB hWC hWD l5 none
      (fun _ => ?_) (fun buf hb => by cases hb)
    rw [noWsPair] at hnw5
    exact hnw5
  have hCA : ∀ b, (fun a b => !(a == ':' && b == '-')) '<' b = true := by
    intro b
    show (!(('<' == ':') && (b == '-'))) = true
    rw [show (('<' : Char) == ':') = false from by decide, Bool.false_and]
    rfl
  have hCB : ∀ a, (fun a b => !(a == ':' && b == '-')) a '>' = true := by
    intro a
    show (!((a == ':') && ('>' == '-'))) = true
    rw [show (('>' : Char) == '-') = false from by decide, Bool.and_false]
    rfl
  have hCC : ∀ b, (fun a b => !(a == ':' && b == '-')) '>' b = true := by
    intro b
    show (!(('>' == ':') && (b == '-'))) = true
    rw [show (('>' : Char) == ':') = false from by decide, Bool.false_and]
    rfl
  have hCD2 : ∀ a, (fun a b => !(a == ':' && b == '-')) a '<' = true := by
    intro a
    show (!((a == ':') && ('<' == '-'))) = true
    rw [show (('<' : Char) == '-') = false from by decide, Bool.and_false]
    rfl
  have hcd6 : noCD l6 = true := by
    rw [h6, noCD]
    refine pairOkB_subPlaceholderAux _ hCA hCB hCC hCD2 l5 none
      (fun _ => ?_) (fun buf hb => by cases hb)
    rw [noCD] at hcd5
    exact hcd5
  have hh6 : '#' ∉ l6 := by
    rw [h6]
    intro hm
    rcases mem_subPlaceholderAux _ _ _ hm with h | h | h | h
    · exact hh5 h
    · rcases h with ⟨buf, hb, _⟩; cases hb
    · exact absurd h (by decide)
    · exact absurd h (by decide)
  have hsp6 : spaceOnly l6 = true := by
    rw [h6]
    refine spaceOnly_intro _ ?_
    intro c hc hw
    rcases mem_subPlaceholderAux _ _ _ hc with h | h | h | h
    · exact spaceOnly_mem _ _ hsp5 h hw
    · rcases h with ⟨buf, hb, _⟩; cases hb
    · subst h; exact absurd hw (by decide)
    · subst h; exact absurd hw (by decide)
  have hsub7 : ∀ c, c ∈ l7 → c ∈ l6 := by
    rw [h7]
    exact fun c hc => (stripBoth_chunk _ _).subset hc
  have hsp7 : spaceOnly l7 = true := spaceOnly_subset _ _ hsub7 hsp6
  have hends7 : ∀ c, (l7.head? = some c ∨ l7.getLast? = some c) →
      stripSet c = false ∧ pyIsSpace c = false := by
    intro c hc
    have hss : stripSet c = false := by
      rcases hc with h | h
      · rw [h7] at h; exact head?_stripBoth_not _ _ _ h
      · rw [h7] at h; exact last?_stripBoth_not _ _ _ h
    refine ⟨hss, ?_⟩
    have hmem : c ∈ l7 := by
      rcases hc with h | h
      · exact mem_of_head_eq _ _ h
      · exact mem_of_getLast_eq _ _ h
    cases hwc : pyIsSpace c with
    | false => rfl
    | true =>
      have hcsp := spaceOnly_mem _ _ hsp7 hmem hwc
      subst hcsp
      exact absurd hss (by decide)
  have hyl7 : yl = l7 := by
    rw [hyl]
    exact stripBoth_id _ _ (fun c hc => (hends7 c (Or.inl hc)).2)
      (fun c hc => (hends7 c (Or.inr hc)).2)
  have hspy : spaceOnly yl = true := by rw [hyl7]; exact hsp7
  have hnwy : noWsPair yl = true := by
    rw [hyl7, noWsPair]
    refine pairOkB_chunk _ _ l6 ?_ ?_
    · rw [h7]; exact stripBoth_chunk _ _
    · rw [noWsPair] at hnw6; exact hnw6
  have hcdy : noCD yl = true := by
    rw [hyl7, noCD]
    refine pairOkB_chunk _ _ l6 ?_ ?_
    · rw [h7]; exact stripBoth_chunk _ _
    · rw [noCD] at hcd6; exact hcd6
  have hhy : '#' ∉ yl := by
    rw [hyl7]
    exact fun hm => hh6 (hsub7 _ hm)
  have hendy : ∀ c, (yl.head? = some c ∨ yl.getLast? = some c) →
      stripSet c = false ∧ pyIsSpace c = false := by
    rw [hyl7]
    exact hends7
  have hidem : subPlaceholderAux none l6 = l6 := by
    rw [h6]
    exact subPlc_idem_aux l5.length l5 le_rfl
  obtain ⟨u1, t1, hdec, hu1, ht1⟩ := stripBoth_decomp stripSet l6
  have hl7e : stripBoth stripSet l6 = l7 := h7.symm
  rw [hl7e] at hdec
  have hu1lt : '<' ∉ u1 := by
    intro hm
    exact absurd (hu1 _ hm) (by decide)
  have ht1lt : '<' ∉ t1 := by
    intro hm
    exact absurd (ht1 _ hm) (by decide)
  have ht1gt : '>' ∉ t1 := by
    intro hm
    exact absurd (ht1 _ hm) (by decide)
  have hplc : subPlaceholderAux none yl = yl := by
    rw [hyl7]
    have e1 : subPlaceholderAux none (u1 ++ (l7 ++ t1)) = u1 ++ (l7 ++ t1) := by
      rw [← List.append_assoc, ← hdec]
      exact hidem
    rw [subPlc_append_no_lt u1 (l7 ++ t1) hu1lt] at e1
    rw [subPlc_append_free l7 t1 ht1lt ht1gt] at e1
    have e2 := List.append_cancel_left e1
    exact List.append_cancel_right e2
  have ePw : pyStripWs yl = yl :=
    stripBoth_id _ _ (fun c hc => (hendy c (Or.inl hc)).2)
      (fun c hc => (hendy c (Or.inr hc)).2)
  have ePs : pyStripSet yl = yl :=
    stripBoth_id _ _ (fun c hc => (hendy c (Or.inl hc)).1)
      (fun c hc => (hendy c (Or.inr hc)).1)
  rw [ePw]
  rw [collapseWs_id yl hnwy hspy]
  rw [hfix]
  rw [subHashRuns_id yl hhy, subLoneHash_id yl hhy]
  have eCD : subColonDash yl = yl := subColonAux_normal_id yl hcdy
  rw [eCD]
  have ePl : subPlaceholder yl = yl := hplc
  rw [ePl]
  rw [ePs]
  exact ePw

theorem string_mk_toList (l : List Char) : (String.mk l).toList = l := rfl

theorem string_toList_mk (s : String) : String.mk s.toList = s := rfl

/-- Any non-empty cleaned string is the pipeline chain applied to the input
characters (`clean_text` with the falsy guard discharged). -/
theorem clean_text_form (s : String) (hs : (s == "") = false) :
    clean_text s = String.mk (pyStripWs (pyStripSet (subPlaceholder (subColonDash
      (subLoneHash (subHashRuns (fix_letter_spacing (collapseWs
        (pyStripWs s.toList))))))))) := by
  rw [clean_text, if_neg (by rw [hs]; exact Bool.false_ne_true)]

/-- C5 (amended): the normaliser is idempotent on inputs without hash
characters whose cleaned form is a fixed point of the letter-spacing fixer:
for such x, `clean_text (clean_text x) = clean_text x`.  The unconditional
idempotence stated by the specification is refuted by
`clean_text_not_idempotent`. -/
theorem clean_text_idempotent_of_fixed (x : String)
    (hhash : '#' ∉ x.toList)
    (hfix : fix_letter_spacing (clean_text x).toList = (clean_text x).toList) :
    clean_text (clean_text x) = clean_text x := by
  by_cases hx0 : x = ""
  · subst hx0; rfl
  · have hxe : (x == "") = false := beq_eq_false_iff_ne.mpr hx0
    have hcx := clean_text_form x hxe
    have hyltoList : (clean_text x).toList = pyStripWs (pyStripSet (subPlaceholder
        (subColonDash (subLoneHash (subHashRuns (fix_letter_spacing (collapseWs
          (pyStripWs x.toList)))))))) := by rw [hcx, string_mk_toList]
    have stab := cleanList_stable x.toList _ _ _ _ _ ((clean_text x).toList)
      hhash rfl rfl rfl rfl rfl hyltoList hfix
    by_cases hy0 : clean_text x = ""
    · rw [hy0]; rfl
    · have hye : (clean_text x == "") = false := beq_eq_false_iff_ne.mpr hy0
      rw [clean_text_form (clean_text x) hye]
      rw [stab, string_toList_mk]

/-- C5 counterexample: `clean_text` is not idempotent — deleting the hash
run in "a ## b" leaves a double space that only the second pass collapses. -/
theorem clean_text_not_idempotent :
    clean_text (clean_text "a ## b") ≠ clean_text "a ## b" := by decide

theorem clean_text_idempotent_of_fixed_witness :
    ('#' ∉ ("a :- b".toList) ∧
     fix_letter_spacing (clean_text "a :- b").toList =
       (clean_text "a :- b").toList) ∧
    clean_text (clean_text "a :- b") = clean_text "a :- b" :=
  ⟨⟨by decide, by decide⟩, clean_text_idempotent_of_fixed _ (by decide) (by decide)⟩

theorem collapseWs_cons_not_ws (c : Char) (m : List Char)
    (hc : pyIsSpace c = false) : collapseWs (c :: m) = c :: collapseWs m := by
  have hcond : ¬(pyIsSpace c = true) := by rw [hc]; exact Bool.false_ne_true
  cases m with
  | nil =>
    simp only [collapseWs]
    rw [if_neg hcond]
  | cons d m2 =>
    have hcond2 : ¬((pyIsSpace c && pyIsSpace d) = true) := by
      rw [hc, Bool.false_and]; exact Bool.false_ne_true
    rw [collapseWs, if_neg hcond2, if_neg hcond]

theorem collapseWs_ws_run : ∀ (w m : List Char), (∀ c ∈ w, pyIsSpace c = true) →
    (∀ c, m.head? = some c → pyIsSpace c = false) → w ≠ [] →
    collapseWs (w ++ m) = ' ' :: collapseWs m := by
  intro w
  induction w with
  | nil => intro m _ _ hne; exact absurd rfl hne
  | cons s w2 ih =>
    intro m hw hm _
    have hs : pyIsSpace s = true := hw s (List.mem_cons_self _ _)
    cases w2 with
    | nil =>
      cases m with
      | nil =>
        rw [List.cons_append, List.nil_append]
        simp only [collapseWs]
        rw [if_pos hs]
      | cons d m2 =>
        have hd : pyIsSpace d = false := hm d (by rw [List.head?_cons])
        have hcond : ¬((pyIsSpace s && pyIsSpace d) = true) := by
          rw [hd, Bool.and_false]; exact Bool.false_ne_true
        rw [List.cons_append, List.nil_append, collapseWs]
        rw [if_neg hcond, if_pos hs]
    | cons s2 w3 =>
      have hs2 : pyIsSpace s2 = true :=
        hw s2 (List.mem_cons_of_mem _ (List.mem_cons_self _ _))
      have hcond : (pyIsSpace s && pyIsSpace s2) = true := by
        rw [hs, hs2]; rfl
      rw [List.cons_append, List.cons_append, collapseWs, if_pos hcond]
      rw [← List.cons_append]
      exact ih m (fun c hc => hw c (List.mem_cons_of_mem _ hc)) hm
        (fun hx => List.noConfusion hx)

theorem collapseWs_append_okp : ∀ (T r : List Char), noWsPair T = true →
    spaceOnly T = true → (∀ c, T.getLast? = some c → pyIsSpace c = false) →
    collapseWs (T ++ r) = T ++ collapseWs r := by
  intro T
  induction T with
  | nil => intro r _ _ _; rfl
  | cons c T2 ih =>
    intro r hnw hsp hTl
    cases T2 with
    | nil =>
      have hc : pyIsSpace c = false := hTl c rfl
      rw [List.cons_append, List.nil_append, collapseWs_cons_not_ws c r hc]
      rfl
    | cons d T3 =>
      have hcd : (pyIsSpace c && pyIsSpace d) = false := by
        have h0 := ((pairOkB_cons_iff _ _ _).mp hnw).1 d (by rw [List.head?_cons])
        revert h0
        show ((!(pyIsSpace c && pyIsSpace d)) = true) → _
        cases (pyIsSpace c && pyIsSpace d) <;> simp
      have hcond : ¬((pyIsSpace c && pyIsSpace d) = true) := by
        rw [hcd]; exact Bool.false_ne_true
      rw [List.cons_append, List.cons_append, collapseWs, if_neg hcond]
      have hhead : (if pyIsSpace c then ' ' else c) = c := by
        cases hwc : pyIsSpace c with
        | false => rfl
        | true => exact (spaceOnly_mem _ _ hsp (List.mem_cons_self _ _) hwc).symm
      rw [hhead, ← List.cons_append]
      rw [ih r (pairOkB_tail _ _ _ hnw) (spaceOnly_cons _ _ hsp).2
        (fun e he => hTl e (by rw [List.getLast?_cons_cons]; exact he))]
      rfl

theorem stripBoth_sandwich (p : Char → Bool) (u m t : List Char)
    (hu : ∀ c ∈ u, p c = true) (ht : ∀ c ∈ t, p c = true)
    (hh : ∀ c, m.head? = some c → p c = false)
    (hl : ∀ c, m.getLast? = some c → p c = false)
    (hne : m ≠ []) :
    stripBoth p (u ++ (m ++ t)) = m := by
  rw [stripBoth]
  rw [dropWhile_append_all p u (m ++ t) hu]
  have hmt : (m ++ t).dropWhile p = m ++ t := by
    refine dropWhile_eq_self_head p _ ?_
    intro r hr
    cases m with
    | nil => exact absurd rfl hne
    | cons a m2 =>
      rw [List.cons_append, List.head?_cons] at hr
      have : a = r := by injection hr
      exact this ▸ hh a (by rw [List.head?_cons])
  rw [hmt]
  rw [List.reverse_append]
  rw [dropWhile_append_all p t.reverse m.reverse
    (fun c hc => ht c (List.mem_reverse.mp hc))]
  have hmr : m.reverse.dropWhile p = m.reverse := by
    refine dropWhile_eq_self_head p _ ?_
    intro r hr
    rw [List.head?_reverse] at hr
    exact hl r hr
  rw [hmr, List.reverse_reverse]

theorem head_append_left (T X : List Char) (hne : T ≠ []) :
    (T ++ X).head? = T.head? := by
  cases T with
  | nil => exact absurd rfl hne
  | cons a T2 => rw [List.cons_append, List.head?_cons, List.head?_cons]

theorem placeholderList_clean (W1 W2 T : List Char)
    (hW1 : W1 = [] ∨ W1 = [' ']) (hW2 : W2 = [] ∨ W2 = [' '])
    (hTne : T ≠ []) (hTh : ∀ c, T.head? = some c → pyIsSpace c = false)
    (hTl : ∀ c, T.getLast? = some c → pyIsSpace c = false)
    (hThash : '#' ∉ T) (hTlt : '<' ∉ T) (hTgt : '>' ∉ T)
    (hTcd : noCD T = true)
    (hfix : fix_letter_spacing ('<' :: (W1 ++ (T ++ (W2 ++ ['>'])))) =
      '<' :: (W1 ++ (T ++ (W2 ++ ['>'])))) :
    pyStripWs (pyStripSet (subPlaceholder (subColonDash (subLoneHash (subHashRuns
      (fix_letter_spacing ('<' :: (W1 ++ (T ++ (W2 ++ ['>'])))))))))) =
      '<' :: (T ++ ['>']) := by
  have hW1mem : ∀ c ∈ W1, c = ' ' := by
    rcases hW1 with h | h <;> subst h
    · intro c hc; cases hc
    · intro c hc; exact List.mem_singleton.mp hc
  have hW2mem : ∀ c ∈ W2, c = ' ' := by
    rcases hW2 with h | h <;> subst h
    · intro c hc; cases hc
    · intro c hc; exact List.mem_singleton.mp hc
  have hmem : ∀ c, c ∈ ('<' :: (W1 ++ (T ++ (W2 ++ ['>'])))) →
      c = '<' ∨ c = ' ' ∨ c ∈ T ∨ c = '>' := by
    intro c hc
    rcases List.mem_cons.mp hc with rfl | hc2
    · exact Or.inl rfl
    rcases List.mem_append.mp hc2 with h | h
    · exact Or.inr (Or.inl (hW1mem c h))
    rcases List.mem_append.mp h with h2 | h2
    · exact Or.inr (Or.inr (Or.inl h2))
    rcases List.mem_append.mp h2 with h3 | h3
    · exact Or.inr (Or.inl (hW2mem c h3))
    · rcases List.mem_singleton.mp h3 with rfl
      exact Or.inr (Or.inr (Or.inr rfl))
  have hhash : '#' ∉ ('<' :: (W1 ++ (T ++ (W2 ++ ['>'])))) := by
    intro hm
    rcases hmem '#' hm with h | h | h | h
    · exact absurd h (by decide)
    · exact absurd h (by decide)
    · exact hThash h
    · exact absurd h (by decide)
  have hPd : ∀ (a b : Char), (b == '-') = false →
      (fun a b => !(a == ':' && b == '-')) a b = true := by
    intro a b hb
    show (!((a == ':') && (b == '-'))) = true
    rw [hb, Bool.and_false]
    rfl
  have hPc : ∀ (a b : Char), (a == ':') = false →
      (fun a b => !(a == ':' && b == '-')) a b = true := by
    intro a b ha
    show (!((a == ':') && (b == '-'))) = true
    rw [ha, Bool.false_and]
    rfl
  have hcdL : noCD ('<' :: (W1 ++ (T ++ (W2 ++ ['>'])))) = true := by
    rw [noCD]
    refine (pairOkB_cons_iff _ _ _).mpr ⟨fun e _ => hPc '<' e (by decide), ?_⟩
    refine (pairOkB_append_iff _ _ _).mpr ⟨?_, ?_, ?_⟩
    · rcases hW1 with h | h <;> subst h <;> rfl
    · refine (pairOkB_append_iff _ _ _).mpr ⟨?_, ?_, ?_⟩
      · rw [noCD] at hTcd; exact hTcd
      · refine (pairOkB_append_iff _ _ _).mpr ⟨?_, ?_, ?_⟩
        · rcases hW2 with h | h <;> subst h <;> rfl
        · rfl
        · intro a b _ hb
          rw [List.head?_cons] at hb
          have hb2 : '>' = b := by injection hb
          exact hPd a b (by rw [← hb2]; decide)
      · intro a b _ hb
        rcases hW2 with h | h <;> subst h
        · rw [List.nil_append, List.head?_cons] at hb
          have hb2 : '>' = b := by injection hb
          exact hPd a b (by rw [← hb2]; decide)
        · rw [List.cons_append, List.head?_cons] at hb
          have hb2 : ' ' = b := by injection hb
          exact hPd a b (by rw [← hb2]; decide)
    · intro a b ha _
      rcases hW1 with h | h <;> subst h
      · rw [List.getLast?_nil] at ha
        cases ha
      · have h0 : ([' '] : List Char).getLast? = some ' ' := rfl
        rw [h0] at ha
        have ha2 : ' ' = a := by injection ha
        exact hPc a b (by rw [← ha2]; decide)
  rw [hfix]
  rw [subHashRuns_id _ hhash, subLoneHash_id _ hhash]
  have hcdE : subColonDash ('<' :: (W1 ++ (T ++ (W2 ++ ['>'])))) =
      '<' :: (W1 ++ (T ++ (W2 ++ ['>']))) := subColonAux_normal_id _ hcdL
  rw [hcdE]
  have hassoc : W1 ++ (T ++ (W2 ++ ['>'])) = (W1 ++ (T ++ W2)) ++ ['>'] := by
    simp [List.append_assoc]
  have hmidne : W1 ++ (T ++ W2) ≠ [] := by
    intro h
    rcases List.append_eq_nil.mp h with ⟨h1, h2⟩
    rcases List.append_eq_nil.mp h2 with ⟨h3, _⟩
    exact hTne h3
  have hmidp : ∀ x ∈ W1 ++ (T ++ W2), (fun y => !(y == '>')) x = true := by
    intro x hx
    have hxne : x ≠ '>' := by
      intro hxe
      subst hxe
      rcases List.mem_append.mp hx with h | h
      · exact absurd (hW1mem _ h) (by decide)
      rcases List.mem_append.mp h with h2 | h2
      · exact hTgt h2
      · exact absurd (hW2mem _ h2) (by decide)
    show (!(x == '>')) = true
    rw [beq_eq_false_iff_ne.mpr hxne]
    rfl
  have hplcE : subPlaceholder ('<' :: (W1 ++ (T ++ (W2 ++ ['>'])))) =
      '<' :: (T ++ ['>']) := by
    rw [hassoc]
    have hlt2 : (('<' : Char) == '<') = true := by decide
    have hhg : ¬(headIsGt ((W1 ++ (T ++ W2)) ++ ['>']) = true) := by
      cases hM : W1 ++ (T ++ W2) with
      | nil => exact absurd hM hmidne
      | cons m0 M2 =>
        rw [List.cons_append, headIsGt]
        have hm0 : m0 ∈ W1 ++ (T ++ W2) := by
          rw [hM]; exact List.mem_cons_self _ _
        have hp0 : (!(m0 == '>')) = true := hmidp m0 hm0
        intro hq
        rw [hq] at hp0
        exact absurd hp0 (by decide)
    have hg : hasGt ((W1 ++ (T ++ W2)) ++ ['>']) = true := by
      rw [hasGt_append]
      have h0 : hasGt ['>'] = true := by decide
      rw [h0, Bool.or_true]
    rw [subPlaceholder, subPlaceholderAux]
    rw [if_pos hlt2, if_neg hhg, if_pos hg]
    rw [subPlc_collect _ [] hg]
    rw [List.reverse_nil, List.nil_append]
    rw [takeWhile_append_all _ _ _ hmidp, dropWhile_append_all _ _ _ hmidp]
    have htw : (['>'] : List Char).takeWhile (fun y => !(y == '>')) = [] := by
      decide
    have hdw : (['>'] : List Char).dropWhile (fun y => !(y == '>')) = ['>'] := by
      decide
    rw [htw, List.append_nil, hdw, List.tail_cons]
    rw [subPlaceholderAux]
    have hstrip : pyStripWs (W1 ++ (T ++ W2)) = T := by
      refine stripBoth_sandwich pyIsSpace W1 T W2 ?_ ?_ hTh hTl hTne
      · intro c hc
        rw [hW1mem c hc]
        decide
      · intro c hc
        rw [hW2mem c hc]
        decide
    rw [hstrip]
  rw [hplcE]
  have hglast : ('<' :: (T ++ ['>'])).getLast? = some '>' := by
    have hform : '<' :: (T ++ ['>']) = ('<' :: T) ++ ['>'] := by
      rw [List.cons_append]
    rw [hform]
    rw [List.getLast?_append_of_ne_nil _ (fun hx => List.noConfusion hx)]
    rfl
  have hendP : ∀ c, (('<' :: (T ++ ['>'])).head? = some c ∨
      ('<' :: (T ++ ['>'])).getLast? = some c) →
      stripSet c = false ∧ pyIsSpace c = false := by
    intro c hc
    rcases hc with h | h
    · rw [List.head?_cons] at h
      have h2 : '<' = c := by injection h
      subst h2
      exact ⟨by decide, by decide⟩
    · rw [hglast] at h
      have h2 : '>' = c := by injection h
      subst h2
      exact ⟨by decide, by decide⟩
  have hsetE : pyStripSet ('<' :: (T ++ ['>'])) = '<' :: (T ++ ['>']) :=
    stripBoth_id _ _ (fun c hc => (hendP c (Or.inl hc)).1)
      (fun c hc => (hendP c (Or.inr hc)).1)
  have hwsE : pyStripWs ('<' :: (T ++ ['>'])) = '<' :: (T ++ ['>']) :=
    stripBoth_id _ _ (fun c hc => (hendP c (Or.inl hc)).2)
      (fun c hc => (hendP c (Or.inr hc)).2)
  rw [hsetE, hwsE]

/-- C6 (amended): a bracketed placeholder whose token has no letter-spacing
rewrite, no hash characters, no brackets and no dash-colon separator has its
edge whitespace trimmed and the token kept verbatim:
`clean_text ("<" ++ w1 ++ T ++ w2 ++ ">") = "<" ++ T ++ ">"` for whitespace
runs w1, w2.  The unconditional form stated by the specification is refuted
by `placeholder_token_rewritten`. -/
theorem placeholder_normalized (w1 w2 T : List Char)
    (hw1 : ∀ c ∈ w1, pyIsSpace c = true) (hw2 : ∀ c ∈ w2, pyIsSpace c = true)
    (hTne : T ≠ [])
    (hTsp : spaceOnly T = true) (hTnw : noWsPair T = true)
    (hTh : ∀ c, T.head? = some c → pyIsSpace c = false)
    (hTl : ∀ c, T.getLast? = some c → pyIsSpace c = false)
    (hThash : '#' ∉ T) (hTlt : '<' ∉ T) (hTgt : '>' ∉ T)
    (hTcd : noCD T = true)
    (hfix : fix_letter_spacing (collapseWs ('<' :: (w1 ++ (T ++ (w2 ++ ['>']))))) =
      collapseWs ('<' :: (w1 ++ (T ++ (w2 ++ ['>']))))) :
    clean_text (String.mk ('<' :: (w1 ++ (T ++ (w2 ++ ['>']))))) =
      String.mk ('<' :: (T ++ ['>'])) := by
  have hne : (String.mk ('<' :: (w1 ++ (T ++ (w2 ++ ['>'])))) == "") = false := by
    refine beq_eq_false_iff_ne.mpr ?_
    intro h
    have h2 := congrArg String.toList h
    rw [string_mk_toList] at h2
    exact List.noConfusion h2
  rw [clean_text_form _ hne, string_mk_toList]
  refine congrArg String.mk ?_
  have hget : ('<' :: (w1 ++ (T ++ (w2 ++ ['>'])))).getLast? = some '>' := by
    have hform : '<' :: (w1 ++ (T ++ (w2 ++ ['>']))) =
        ('<' :: (w1 ++ (T ++ w2))) ++ ['>'] := by
      simp [List.cons_append, List.append_assoc]
    rw [hform, List.getLast?_append_of_ne_nil _ (fun hx => List.noConfusion hx)]
    rfl
  have hstrip1 : pyStripWs ('<' :: (w1 ++ (T ++ (w2 ++ ['>'])))) =
      '<' :: (w1 ++ (T ++ (w2 ++ ['>']))) := by
    refine stripBoth_id _ _ ?_ ?_
    · intro c hc
      rw [List.head?_cons] at hc
      have h2 : '<' = c := by injection hc
      subst h2
      decide
    · intro c hc
      rw [hget] at hc
      have h2 : '>' = c := by injection hc
      subst h2
      decide
  rw [hstrip1]
  have hW1c : ∃ W1, (W1 = [] ∨ W1 = [' ']) ∧
      collapseWs (w1 ++ (T ++ (w2 ++ ['>']))) =
        W1 ++ collapseWs (T ++ (w2 ++ ['>'])) := by
    cases w1 with
    | nil => exact ⟨[], Or.inl rfl, by rw [List.nil_append, List.nil_append]⟩
    | cons s ws =>
      refine ⟨[' '], Or.inr rfl, ?_⟩
      rw [collapseWs_ws_run (s :: ws) (T ++ (w2 ++ ['>'])) hw1
        (fun c hc => hTh c (by rw [head_append_left T _ hTne] at hc; exact hc))
        (fun hx => List.noConfusion hx)]
      rfl
  have hW2c : ∃ W2, (W2 = [] ∨ W2 = [' ']) ∧
      collapseWs (w2 ++ ['>']) = W2 ++ ['>'] := by
    cases w2 with
    | nil =>
      exact ⟨[], Or.inl rfl, by rfl⟩
    | cons s ws =>
      refine ⟨[' '], Or.inr rfl, ?_⟩
      rw [collapseWs_ws_run (s :: ws) ['>'] hw2 ?_ (fun hx => List.noConfusion hx)]
      · rfl
      · intro c hc
        rw [List.head?_cons] at hc
        have h2 : '>' = c := by injection hc
        subst h2
        decide
  obtain ⟨W1, hW1or, hW1e⟩ := hW1c
  obtain ⟨W2, hW2or, hW2e⟩ := hW2c
  have hcoll : collapseWs ('<' :: (w1 ++ (T ++ (w2 ++ ['>'])))) =
      '<' :: (W1 ++ (T ++ (W2 ++ ['>']))) := by
    rw [collapseWs_cons_not_ws _ _ (by decide)]
    rw [hW1e]
    rw [collapseWs_append_okp T _ hTnw hTsp hTl]
    rw [hW2e]
  rw [hcoll]
  rw [hcoll] at hfix
  exact placeholderList_clean W1 W2 T hW1or hW2or hTne hTh hTl hThash hTlt hTgt
    hTcd hfix

/-- C6 counterexample: the token of a placeholder is not preserved verbatim —
the letter-spacing fixer rewrites it ("< C O A L >" becomes "<COAL>", not
"<C O A L>"). -/
theorem placeholder_token_rewritten :
    clean_text "< C O A L >" ≠ "<C O A L>" := by decide

theorem placeholder_normalized_witness :
    clean_text (String.mk ('<' :: ([' '] ++ ("VENDOR NAME".toList ++
      ([' '] ++ ['>']))))) = String.mk ('<' :: ("VENDOR NAME".toList ++ ['>'])) :=
  placeholder_normalized [' '] [' '] ("VENDOR NAME".toList)
    (by decide) (by decide) (by decide) (by decide) (by decide)
    (by
      intro c hc
      have h0 : ("VENDOR NAME".toList).head? = some 'V' := rfl
      rw [h0] at hc
      have h1 : 'V' = c := by injection hc
      rw [← h1]
      decide)
    (by
      intro c hc
      have h0 : ("VENDOR NAME".toList).getLast? = some 'E' := rfl
      rw [h0] at hc
      have h1 : 'E' = c := by injection hc
      rw [← h1]
      decide)
    (by decide) (by decide) (by decide) (by decide) (by decide)

end WorkOrder
